import Mathlib

/-!
Verification of the `statio` running-statistics library (`statio/core.py`).

Numbers are modelled as `ℚ` (the claims under scrutiny are about exact
arithmetic; the Python floats are IEEE doubles, and every update formula is
transcribed verbatim over `ℚ`).  A Python `ValueError` is modelled as
`Except.error`; each public `*_values` function returns
`Except String (List ℚ)`.

Transcription conventions, used throughout:
* Python `period` arguments are `Option ℚ` (`None` ↦ `none`); Python
  truthiness of a number is `≠ 0`.
* `int(q)` (truncation toward zero) is `pyInt` below; it is applied only to
  periods that passed the `period < 1` check, hence to rationals `≥ 1`.
* the `for bar, newx in enumerate(values)` accumulator loops are the single
  generic loop `aggLoop` (the `lastval == None` test succeeds exactly at
  `bar = 0`, since all list elements are numbers);
* list indexing `values[bar - period]` (always in range, `0 ≤ bar - period
  < len(values)`) is `List.getD _ _ 0`.
-/

namespace Statio

/-- Python `int(q)` for a rational: truncation toward zero.  (Only ever
applied to validated periods `q ≥ 1`, where it agrees with `⌊q⌋`.) -/
def pyInt (q : ℚ) : ℕ := (q.num.tdiv (q.den : ℤ)).toNat

/-- The shared `period` validation prologue of every `*_values` function:

    if period:
        if period < 1:
            raise ValueError("period must be 1 or greater")
        period = int(period)

The returned `ℕ` is the integer period actually used by the loop; `0` means
"falsy" (absent or zero period, i.e. an unbounded window), matching the
loop-level truthiness tests `(not period)` / `if period and ...`. -/
def checkPeriod : Option ℚ → Except String ℕ
  | none => .ok 0
  | some q =>
    if q = 0 then .ok 0
    else if q < 1 then .error "period must be 1 or greater"
    else .ok (pyInt q)

/-- The generic accumulator loop shared by `sum_values`, `sma_values`,
`ema_values`, `wwma_values` and `psa_values`:

    results = []
    lastval = None
    for bar, newx in enumerate(values):
        if lastval == None:
            lastval = <seed newx>
        else:
            lastval = <step bar newx lastval>
        results.append(lastval)
    return results

where `<step>` contains the warm-up/steady-state branch of each function. -/
def aggLoop (seed : ℚ → ℚ) (step : ℕ → ℚ → ℚ → ℚ) : ℕ → Option ℚ → List ℚ → List ℚ
  | _, _, [] => []
  | bar, none, x :: rest =>
    let val := seed x
    val :: aggLoop seed step (bar + 1) (some val) rest
  | bar, some acc, x :: rest =>
    let val := step bar x acc
    val :: aggLoop seed step (bar + 1) (some val) rest

/-- The value of the accumulator of `aggLoop` after processing index `i`
(recurrence form used in proofs; `aggLoop_eq_map` links the two). -/
def accAt (seed : ℚ → ℚ) (step : ℕ → ℚ → ℚ → ℚ) (v : List ℚ) : ℕ → ℚ
  | 0 => seed (v.getD 0 0)
  | i + 1 => step (i + 1) (v.getD (i + 1) 0) (accAt seed step v i)

/-- Update of `sum_values`:
`lastval += newx` while warm (`(not period) or (bar < period)`), else
`lastval += (newx - values[bar - period])`. -/
def sumStep (v : List ℚ) (p : ℕ) (bar : ℕ) (x acc : ℚ) : ℚ :=
  if p = 0 ∨ bar < p then acc + x
  else acc + (x - v.getD (bar - p) 0)

/-- `sum_values(values, period)` (core.py line 23). -/
def sum_values (values : List ℚ) (period : Option ℚ) : Except String (List ℚ) :=
  match checkPeriod period with
  | .error e => .error e
  | .ok p => .ok (aggLoop (fun x => x) (sumStep values p) 0 none values)

/-- Update of `sma_values`: `lastval += (newx - lastval) / (bar + 1.0)` while
warm, else `lastval += (newx - values[bar - period]) / period_n`.  Note that
the code computes `period_n = float(period)` BEFORE `period = int(period)`,
so the steady-state divisor `pn` is the original (possibly fractional)
period while the evicted index uses the truncated `p`. -/
def smaStep (v : List ℚ) (p : ℕ) (pn : ℚ) (bar : ℕ) (x acc : ℚ) : ℚ :=
  if p = 0 ∨ bar < p then acc + (x - acc) / ((bar : ℚ) + 1)
  else acc + (x - v.getD (bar - p) 0) / pn

/-- The value (pre-`int`) of a truthy period, used for `period_n = float(period)`. -/
def periodN : Option ℚ → ℚ
  | none => 0
  | some q => q

/-- `sma_values(values, period)` (core.py line 91). -/
def sma_values (values : List ℚ) (period : Option ℚ) : Except String (List ℚ) :=
  match checkPeriod period with
  | .error e => .error e
  | .ok p => .ok (aggLoop (fun x => x) (smaStep values p (periodN period)) 0 none values)

/-- Update of `ema_values`: cumulative-mean formula while warm, else
`lastval = lastval + smoothing * (newx - lastval)`. -/
def emaStep (p : ℕ) (s : ℚ) (bar : ℕ) (x acc : ℚ) : ℚ :=
  if p = 0 ∨ bar < p then acc + (x - acc) / ((bar : ℚ) + 1)
  else acc + s * (x - acc)

/-- `ema_values(values, period, smoothing)` (core.py line 160).  The
smoothing factor is validated (and defaulted to `2.0 / (period + 1.0)`,
with the pre-`int` period) only inside the `if period:` branch; when the
period is falsy the smoothing argument is never read (the steady-state
branch is unreachable), so an arbitrary stand-in value is passed to the
loop.  The Python error message appends `str(smoothing)`; the model keeps
the fixed prefix only. -/
def ema_values (values : List ℚ) (period : Option ℚ) (smoothing : Option ℚ) :
    Except String (List ℚ) :=
  match period with
  | none => .ok (aggLoop (fun x => x) (emaStep 0 (smoothing.getD 0)) 0 none values)
  | some q =>
    if q = 0 then .ok (aggLoop (fun x => x) (emaStep 0 (smoothing.getD 0)) 0 none values)
    else if q < 1 then .error "period must be 1 or greater"
    else
      match smoothing with
      | none => .ok (aggLoop (fun x => x) (emaStep (pyInt q) (2 / (q + 1))) 0 none values)
      | some s =>
        if s < 0 ∨ 1 < s then .error "smoothing outside of 0 to 1 range: "
        else .ok (aggLoop (fun x => x) (emaStep (pyInt q) s) 0 none values)

/-- Update of `wwma_values`: cumulative-mean formula while warm, else
`lastval = (newx + lastval * (period - 1.0)) / period`. -/
def wwmaStep (p : ℕ) (bar : ℕ) (x acc : ℚ) : ℚ :=
  if p = 0 ∨ bar < p then acc + (x - acc) / ((bar : ℚ) + 1)
  else (x + acc * ((p : ℚ) - 1)) / (p : ℚ)

/-- `wwma_values(values, period)` (core.py line 210). -/
def wwma_values (values : List ℚ) (period : Option ℚ) : Except String (List ℚ) :=
  match checkPeriod period with
  | .error e => .error e
  | .ok p => .ok (aggLoop (fun x => x) (wwmaStep p) 0 none values)

/-- Update of `psa_values`: seed `(newx * newx) / (bar + 1.0)` at `bar = 0`
(so `/ 1`), `lastval += ((newx * newx) - lastval) / (bar + 1.0)` while warm,
else `lastval += ((newx * newx) - (oldx * oldx)) / period_n`. -/
def psaStep (v : List ℚ) (p : ℕ) (pn : ℚ) (bar : ℕ) (x acc : ℚ) : ℚ :=
  if p = 0 ∨ bar < p then acc + (x * x - acc) / ((bar : ℚ) + 1)
  else acc + (x * x - v.getD (bar - p) 0 * v.getD (bar - p) 0) / pn

/-- `psa_values(values, period)` (core.py line 249). -/
def psa_values (values : List ℚ) (period : Option ℚ) : Except String (List ℚ) :=
  match checkPeriod period with
  | .error e => .error e
  | .ok p => .ok (aggLoop (fun x => x * x) (psaStep values p (periodN period)) 0 none values)

/-- The window size `size` used by `_varbases` at step `bar`
(`bar + 1.0` while `(not period) or (bar < period)`, else `period_n`). -/
def sizeAt (p bar : ℕ) : ℕ := if p = 0 ∨ bar < p then bar + 1 else p

/-- A sequential effectful map: elements are processed in order and the
first raising element aborts the whole call.  Used both for Python-level
iteration that can raise (the `zip` loop of `_varbases`, whose division can
raise `ZeroDivisionError`) and for the list comprehension
`[_sqrt(x) for x in results]`. -/
def mapExcept {α β : Type} (f : α → Except String β) : List α → Except String (List β)
  | [] => .ok []
  | x :: t =>
    match f x with
    | .error e => .error e
    | .ok y =>
      match mapExcept f t with
      | .error e => .error e
      | .ok ys => .ok (y :: ys)

/-- The value appended by the `_varbases` loop at step `bar` when its
division succeeds: the special-cased `0.0` at `bar = 0`, else

    lastval = (psa_x * size - size * sma_x * sma_x) / n,  n = size - sample_adjust

(every later entry is computed afresh from `sma_x`, `psa_x` and `size` at
that index — there is no recurrence through `lastval`). -/
def varbasesFun (v : List ℚ) (p : ℕ) (population : Bool) (bar : ℕ) : ℚ :=
  if bar = 0 then 0
  else
    ((aggLoop (fun x => x * x) (psaStep v p (p : ℚ)) 0 none v).getD bar 0 * (sizeAt p bar : ℚ) -
        (sizeAt p bar : ℚ) * (aggLoop (fun x => x) (smaStep v p (p : ℚ)) 0 none v).getD bar 0 *
          (aggLoop (fun x => x) (smaStep v p (p : ℚ)) 0 none v).getD bar 0) /
      ((sizeAt p bar : ℚ) - if population then 0 else 1)

/-- One step of the `_varbases` loop.  Python float division raises
`ZeroDivisionError` (message "float division by zero") when the divisor
`n = size - sample_adjust` is exactly `0.0` — which happens precisely for
the sample variants (`sample_adjust = 1`) at `period = 1` steady-state
steps; at `bar = 0` the loop `continue`s with `0.0` before any division. -/
def varbasesCell (v : List ℚ) (p : ℕ) (population : Bool) (bar : ℕ) : Except String ℚ :=
  if bar = 0 then .ok 0
  else if (sizeAt p bar : ℚ) - (if population then 0 else 1) = 0 then
    .error "float division by zero"
  else .ok (varbasesFun v p population bar)

/-- The body of `_varbases` after period validation (`p` is the already
truncated integer period, `0` if falsy).  `_varbases` converts the period to
`int` before passing it on, so `sma_values`/`psa_values` are invoked with
the integer period (hence `period_n = p` inside them).  The `zip` loop runs
over the indices in order, aborting at the first zero divisor exactly as
the Python loop does. -/
def varbasesLoop (v : List ℚ) (p : ℕ) (population : Bool) : Except String (List ℚ) :=
  mapExcept (varbasesCell v p population) (List.range v.length)

/-- The full `_varbases` result list, in the non-raising region. -/
def varbasesOut (v : List ℚ) (p : ℕ) (population : Bool) : List ℚ :=
  (List.range v.length).map (varbasesFun v p population)

/-- `_varbases(values, period, population)` (core.py line 292). -/
def varbases (values : List ℚ) (period : Option ℚ) (population : Bool) :
    Except String (List ℚ) :=
  match checkPeriod period with
  | .error e => .error e
  | .ok p => varbasesLoop values p population

/-- `varp_values(values, period)` (core.py line 403). -/
def varp_values (values : List ℚ) (period : Option ℚ) : Except String (List ℚ) :=
  varbases values period true

/-- `var_values(values, period)` (core.py line 437). -/
def var_values (values : List ℚ) (period : Option ℚ) : Except String (List ℚ) :=
  varbases values period false

/-- `math.sqrt`, as used by `std_values`/`stdp_values`: raises a domain
error on negative input.  On the non-negative side the float square root is
modelled by Mathlib's rational approximation `Rat.sqrt`; no claim depends on
the returned value, only on the domain check. -/
def mathSqrt (x : ℚ) : Except String ℚ :=
  if x < 0 then .error "math domain error" else .ok (Rat.sqrt x)

/-- `stdp_values(values, period)` (core.py line 471). -/
def stdp_values (values : List ℚ) (period : Option ℚ) : Except String (List ℚ) :=
  match varbases values period true with
  | .error e => .error e
  | .ok rs => mapExcept mathSqrt rs

/-- `std_values(values, period)` (core.py line 514). -/
def std_values (values : List ℚ) (period : Option ℚ) : Except String (List ℚ) :=
  match varbases values period false with
  | .error e => .error e
  | .ok rs => mapExcept mathSqrt rs

/-- `bisect.bisect_left(recs, x)`: the leftmost insertion point for `x`,
i.e. (on the sorted lists it is ever applied to) the number of elements
strictly below `x`. -/
def bisect_left (recs : List ℚ) (x : ℚ) : ℕ :=
  (recs.takeWhile (fun y => decide (y < x))).length

/-- `bisect.insort(recs, x)`: insert `x` at the rightmost position keeping
`recs` sorted (new duplicates land after existing equal entries). -/
def insort (recs : List ℚ) (x : ℚ) : List ℚ :=
  let k := (recs.takeWhile (fun y => decide (y ≤ x))).length
  recs.take k ++ x :: recs.drop k

/-- The sorted-window maintenance loop shared by `max_values`, `min_values`,
`top_values` and `bottom_values`:

    for bar, newx in enumerate(values):
        if period and (bar >= period):
            item = values[bar - period]
            idx = _search(recs, item)
            del recs[idx]
        _additem(recs, newx)
        lastval = <read bar recs>
        results.append(lastval)

(`del recs[idx]` is `List.eraseIdx`; under the loop invariant the evicted
item is always present, so the index is in range.) -/
def osLoop {α : Type} (read : ℕ → List ℚ → α) (v : List ℚ) (p : ℕ) :
    ℕ → List ℚ → List ℚ → List α
  | _, _, [] => []
  | bar, recs, newx :: rest =>
    let recs1 := if p ≠ 0 ∧ p ≤ bar then recs.eraseIdx (bisect_left recs (v.getD (bar - p) 0))
      else recs
    let recs2 := insort recs1 newx
    read bar recs2 :: osLoop read v p (bar + 1) recs2 rest

/-- `max_values(values, period)` (core.py line 557): reads `recs[-1]`
(`recs` is never empty at read time, having just been inserted into). -/
def max_values (values : List ℚ) (period : Option ℚ) : Except String (List ℚ) :=
  match checkPeriod period with
  | .error e => .error e
  | .ok p => .ok (osLoop (fun _ recs => recs.getLastD 0) values p 0 [] values)

/-- `min_values(values, period)` (core.py line 644): reads `recs[0]`. -/
def min_values (values : List ℚ) (period : Option ℚ) : Except String (List ℚ) :=
  match checkPeriod period with
  | .error e => .error e
  | .ok p => .ok (osLoop (fun _ recs => recs.headD 0) values p 0 [] values)

/-- Python slice `recs[-b:]` for `b : ℕ` (`recs[-0:]` is the whole list). -/
def sliceLastNeg (l : List ℚ) (b : ℕ) : List ℚ :=
  if b = 0 then l else l.drop (l.length - b)

/-- `begidx = num; if bar < num - 1: begidx = bar + 1` (Python integer
arithmetic; for `num = 0` the comparison `bar < -1` is false, and truncated
`ℕ` subtraction gives the same branch). -/
def countIdx (num bar : ℕ) : ℕ := if bar < num - 1 then bar + 1 else num

/-- `top_values(values, period, num)` (core.py line 597): reads
`recs[-begidx:]`. -/
def top_values (values : List ℚ) (period : Option ℚ) (num : ℕ) :
    Except String (List (List ℚ)) :=
  match checkPeriod period with
  | .error e => .error e
  | .ok p =>
    .ok (osLoop (fun bar recs => sliceLastNeg recs (countIdx num bar)) values p 0 [] values)

/-- `bottom_values(values, period, num)` (core.py line 683): reads
`recs[0:endidx]`. -/
def bottom_values (values : List ℚ) (period : Option ℚ) (num : ℕ) :
    Except String (List (List ℚ)) :=
  match checkPeriod period with
  | .error e => .error e
  | .ok p =>
    .ok (osLoop (fun bar recs => recs.take (countIdx num bar)) values p 0 [] values)

/-! ## Specification-side definitions -/

/-- The trailing window `v[max(0, i-p+1) ..= i]` of claimed width `p`
(`p = 0` meaning an unbounded window, i.e. the whole prefix `v[0 ..= i]`). -/
def winList (v : List ℚ) (p i : ℕ) : List ℚ :=
  if p = 0 then v.take (i + 1) else (v.take (i + 1)).drop (i + 1 - p)

/-- The trailing window in ascending order. -/
def sortedWin (v : List ℚ) (p i : ℕ) : List ℚ :=
  (winList v p i).insertionSort (· ≤ ·)

/-- Maximum of a list (`0` for the empty list, which never occurs in use). -/
def listMax : List ℚ → ℚ
  | [] => 0
  | x :: t => t.foldl max x

/-- Minimum of a list (`0` for the empty list, which never occurs in use). -/
def listMin : List ℚ → ℚ
  | [] => 0
  | x :: t => t.foldl min x

/-- `e` succeeded with a list of length `n`. -/
def okLen {α : Type} (e : Except String (List α)) (n : ℕ) : Prop :=
  ∃ l, e = .ok l ∧ l.length = n

/-- `e` succeeded. -/
def isOkP {α : Type} (e : Except String α) : Prop := ∃ a, e = .ok a

/-- `e` failed with the configuration error. -/
def isErrP {α : Type} (e : Except String α) : Prop := ∃ m, e = .error m

/-- Every `*_values` operation raises exactly the period configuration
error ValueError("period must be 1 or greater") (the smoothing argument of
`ema_values` left absent, the count of `top/bottom` at its default `1`). -/
def allPeriodError (v : List ℚ) (q : Option ℚ) : Prop :=
  sum_values v q = .error "period must be 1 or greater" ∧
    sma_values v q = .error "period must be 1 or greater" ∧
    ema_values v q none = .error "period must be 1 or greater" ∧
    wwma_values v q = .error "period must be 1 or greater" ∧
    psa_values v q = .error "period must be 1 or greater" ∧
    var_values v q = .error "period must be 1 or greater" ∧
    varp_values v q = .error "period must be 1 or greater" ∧
    std_values v q = .error "period must be 1 or greater" ∧
    stdp_values v q = .error "period must be 1 or greater" ∧
    max_values v q = .error "period must be 1 or greater" ∧
    min_values v q = .error "period must be 1 or greater" ∧
    top_values v q 1 = .error "period must be 1 or greater" ∧
    bottom_values v q 1 = .error "period must be 1 or greater"

/-- `e` did not raise the period configuration error: the period argument
itself was accepted (a later failure unrelated to period validation, such
as the sample-variance ZeroDivisionError, is permitted). -/
def notPeriodErr {α : Type} (e : Except String α) : Prop :=
  e ≠ .error "period must be 1 or greater"

/-- Every `*_values` operation accepts the period argument. -/
def allPeriodAccepted (v : List ℚ) (q : Option ℚ) : Prop :=
  notPeriodErr (sum_values v q) ∧ notPeriodErr (sma_values v q) ∧
    notPeriodErr (ema_values v q none) ∧ notPeriodErr (wwma_values v q) ∧
    notPeriodErr (psa_values v q) ∧ notPeriodErr (var_values v q) ∧
    notPeriodErr (varp_values v q) ∧ notPeriodErr (std_values v q) ∧
    notPeriodErr (stdp_values v q) ∧ notPeriodErr (max_values v q) ∧
    notPeriodErr (min_values v q) ∧ notPeriodErr (top_values v q 1) ∧
    notPeriodErr (bottom_values v q 1)

/-- Every `*_values` operation except the sample-variance pair
(`var_values`, `std_values` — whose period-1 zero divisor is treated
separately) returns a list exactly as long as the input (smoothing `s` for
`ema_values`, count `num` for `top/bottom`). -/
def allValuesLen (v : List ℚ) (q : Option ℚ) (s : Option ℚ) (num : ℕ) : Prop :=
  okLen (sum_values v q) v.length ∧ okLen (sma_values v q) v.length ∧
    okLen (ema_values v q s) v.length ∧ okLen (wwma_values v q) v.length ∧
    okLen (psa_values v q) v.length ∧ okLen (varp_values v q) v.length ∧
    okLen (stdp_values v q) v.length ∧ okLen (max_values v q) v.length ∧
    okLen (min_values v q) v.length ∧ okLen (top_values v q num) v.length ∧
    okLen (bottom_values v q num) v.length

/-! ## The accumulator loop as a map over indices -/

theorem aggLoop_drop_eq (seed : ℚ → ℚ) (step : ℕ → ℚ → ℚ → ℚ) (v : List ℚ) :
    ∀ (n k : ℕ), v.length = k + n → 1 ≤ k →
      aggLoop seed step k (some (accAt seed step v (k - 1))) (v.drop k) =
        (List.range' k n).map (accAt seed step v) := by
  intro n
  induction n with
  | zero =>
    intro k hk _
    have hk2 : k = v.length := by omega
    rw [hk2, List.drop_length v]
    rfl
  | succ n ih =>
    intro k hlen hk
    have hklt : k < v.length := by omega
    have hdrop : v.drop k = v.getD k 0 :: v.drop (k + 1) := by
      rw [List.drop_eq_getElem_cons hklt, List.getD_eq_getElem v 0 hklt]
    have hstep : step k (v.getD k 0) (accAt seed step v (k - 1)) = accAt seed step v k := by
      obtain ⟨k0, rfl⟩ : ∃ k0, k = k0 + 1 := ⟨k - 1, by omega⟩
      simp [accAt]
    rw [hdrop]
    show step k (v.getD k 0) (accAt seed step v (k - 1)) ::
        aggLoop seed step (k + 1)
          (some (step k (v.getD k 0) (accAt seed step v (k - 1)))) (v.drop (k + 1)) = _
    rw [hstep, List.range'_succ k n 1, List.map_cons]
    congr 1
    have h1 := ih (k + 1) (by omega) (by omega)
    simpa using h1

theorem aggLoop_eq_map (seed : ℚ → ℚ) (step : ℕ → ℚ → ℚ → ℚ) (v : List ℚ) :
    aggLoop seed step 0 none v = (List.range v.length).map (accAt seed step v) := by
  cases v with
  | nil => rfl
  | cons x rest =>
    have h1 := aggLoop_drop_eq seed step (x :: rest) rest.length 1
      (by simp only [List.length_cons]; omega) (by omega)
    have h0 : accAt seed step (x :: rest) (1 - 1) = seed x := rfl
    rw [h0] at h1
    simp only [List.drop_succ_cons, List.drop_zero] at h1
    rw [List.range_eq_range', show (x :: rest).length = rest.length + 1 from by simp,
      List.range'_succ 0 rest.length 1, List.map_cons]
    show seed x :: aggLoop seed step 1 (some (seed x)) rest = _
    exact congrArg (fun t => seed x :: t) h1

theorem getD_map_range {α : Type} (f : ℕ → α) (n i : ℕ) (hi : i < n) (d : α) :
    ((List.range n).map f).getD i d = f i := by
  rw [List.getD_eq_getElem _ d (by simpa using hi)]
  simp

/-! ## Structural facts about the trailing window -/

theorem winList_zero (v : List ℚ) (p : ℕ) (hv : 0 < v.length) :
    winList v p 0 = [v.getD 0 0] := by
  cases v with
  | nil => simp at hv
  | cons x rest =>
    unfold winList
    rcases Nat.eq_zero_or_pos p with hp | hp
    · simp [hp]
    · have : 1 - p = 0 := by omega
      simp [Nat.pos_iff_ne_zero.mp hp, this]

theorem winList_grow (v : List ℚ) (p i : ℕ) (hi : i + 1 < v.length)
    (h : p = 0 ∨ i + 1 < p) :
    winList v p (i + 1) = winList v p i ++ [v.getD (i + 1) 0] := by
  have htake : v.take (i + 2) = v.take (i + 1) ++ [v.getD (i + 1) 0] := by
    rw [List.take_succ, List.getD_eq_getElem v 0 hi]
    simp [List.getElem?_eq_getElem hi]
  unfold winList
  rcases h with hp | hp
  · simp [hp, htake]
  · have hpne : ¬ p = 0 := by omega
    have h1 : i + 1 + 1 - p = 0 := by omega
    have h2 : i + 1 - p = 0 := by omega
    simp [hpne, h1, h2, htake]

theorem winList_slide (v : List ℚ) (p i : ℕ) (hi : i + 1 < v.length)
    (hp : p ≠ 0) (hple : p ≤ i + 1) :
    winList v p (i + 1) = (winList v p i).tail ++ [v.getD (i + 1) 0] ∧
      winList v p i = v.getD (i + 1 - p) 0 :: (winList v p i).tail := by
  have hlt : i + 1 - p < (v.take (i + 1)).length := by
    rw [List.length_take]
    omega
  have hcons : winList v p i = v.getD (i + 1 - p) 0 :: (v.take (i + 1)).drop (i + 1 - p + 1) := by
    unfold winList
    rw [if_neg hp, List.drop_eq_getElem_cons hlt]
    congr 1
    rw [List.getElem_take, List.getD_eq_getElem v 0 (by omega)]
  have htail : (winList v p i).tail = (v.take (i + 1)).drop (i + 1 - p + 1) := by
    rw [hcons]
    rfl
  refine ⟨?_, by rw [htail]; exact hcons⟩
  have htake : v.take (i + 2) = v.take (i + 1) ++ [v.getD (i + 1) 0] := by
    rw [List.take_succ, List.getD_eq_getElem v 0 hi]
    simp [List.getElem?_eq_getElem hi]
  rw [htail]
  unfold winList
  rw [if_neg hp, htake, List.drop_append_of_le_length (by rw [List.length_take]; omega)]
  congr 2
  omega

theorem winList_length (v : List ℚ) (p i : ℕ) (hi : i < v.length) :
    (winList v p i).length = if p = 0 then i + 1 else min p (i + 1) := by
  unfold winList
  rcases Nat.eq_zero_or_pos p with hp | hp
  · rw [if_pos hp, if_pos hp, List.length_take]
    omega
  · rw [if_neg (by omega), if_neg (by omega), List.length_drop, List.length_take]
    omega

theorem winList_ne_nil (v : List ℚ) (p i : ℕ) (hi : i < v.length) :
    winList v p i ≠ [] := by
  have h := winList_length v p i hi
  intro hnil
  rw [hnil] at h
  simp only [List.length_nil] at h
  rcases Nat.eq_zero_or_pos p with hp | hp
  · rw [if_pos hp] at h
    omega
  · rw [if_neg (by omega)] at h
    omega

/-! ## Validation lemmas -/

theorem pyInt_natCast (p : ℕ) : pyInt (p : ℚ) = p := by
  unfold pyInt
  rw [Rat.num_natCast, Rat.den_natCast]
  simp [Int.tdiv_one]

theorem checkPeriod_natCast (p : ℕ) (hp : 1 ≤ p) : checkPeriod (some (p : ℚ)) = .ok p := by
  simp only [checkPeriod]
  rw [if_neg (by exact_mod_cast by omega), if_neg (not_lt.mpr (by exact_mod_cast hp)),
    pyInt_natCast]

/-! ## Closed forms of the accumulators -/

theorem sum_accAt (v : List ℚ) (p : ℕ) :
    ∀ i, i < v.length → accAt (fun x => x) (sumStep v p) v i = (winList v p i).sum := by
  intro i
  induction i with
  | zero =>
    intro hi
    rw [winList_zero v p hi]
    simp [accAt]
  | succ i ih =>
    intro hi
    have hii : i < v.length := by omega
    show sumStep v p (i + 1) (v.getD (i + 1) 0) (accAt (fun x => x) (sumStep v p) v i) = _
    rw [ih hii]
    by_cases h : p = 0 ∨ i + 1 < p
    · rw [winList_grow v p i hi h]
      unfold sumStep
      rw [if_pos h, List.sum_append, List.sum_cons, List.sum_nil]
      ring
    · push_neg at h
      obtain ⟨hp, hple⟩ := h
      obtain ⟨hw1, hw2⟩ := winList_slide v p i hi hp hple
      have hsum : (winList v p i).sum = v.getD (i + 1 - p) 0 + (winList v p i).tail.sum := by
        conv_lhs => rw [hw2]
        rw [List.sum_cons]
      unfold sumStep
      rw [if_neg (by omega), hsum, hw1, List.sum_append, List.sum_cons, List.sum_nil]
      ring

theorem sma_accAt (v : List ℚ) (p : ℕ) :
    ∀ i, i < v.length →
      accAt (fun x => x) (smaStep v p (p : ℚ)) v i =
        (winList v p i).sum / ((winList v p i).length : ℚ) := by
  intro i
  induction i with
  | zero =>
    intro hi
    rw [winList_zero v p hi]
    simp [accAt]
  | succ i ih =>
    intro hi
    have hii : i < v.length := by omega
    have hlen_i := winList_length v p i hii
    show smaStep v p (p : ℚ) (i + 1) (v.getD (i + 1) 0)
        (accAt (fun x => x) (smaStep v p (p : ℚ)) v i) = _
    rw [ih hii]
    by_cases h : p = 0 ∨ i + 1 < p
    · have hn : (winList v p i).length = i + 1 := by
        rw [hlen_i]
        rcases h with h | h
        · rw [if_pos h]
        · rw [if_neg (by omega)]
          omega
      rw [winList_grow v p i hi h]
      unfold smaStep
      rw [if_pos h, List.sum_append, List.sum_cons, List.sum_nil, List.length_append, hn]
      simp only [List.length_cons, List.length_nil]
      have hq1 : ((i : ℚ) + 1) ≠ 0 := by positivity
      push_cast
      field_simp
      ring
    · push_neg at h
      obtain ⟨hp, hple⟩ := h
      obtain ⟨hw1, hw2⟩ := winList_slide v p i hi hp hple
      have hn : (winList v p i).length = p := by
        rw [hlen_i, if_neg hp]
        omega
      have hn1 : (winList v p (i + 1)).length = p := by
        rw [winList_length v p (i + 1) hi, if_neg hp]
        omega
      have hsum : (winList v p i).sum = v.getD (i + 1 - p) 0 + (winList v p i).tail.sum := by
        conv_lhs => rw [hw2]
        rw [List.sum_cons]
      have hpq : ((p : ℚ)) ≠ 0 := Nat.cast_ne_zero.mpr hp
      unfold smaStep
      rw [if_neg (by omega), hsum, hn, hn1, hw1, List.sum_append, List.sum_cons, List.sum_nil]
      field_simp
      ring

theorem psa_accAt (v : List ℚ) (p : ℕ) :
    ∀ i, i < v.length →
      accAt (fun x => x * x) (psaStep v p (p : ℚ)) v i =
        ((winList v p i).map (fun y => y * y)).sum / ((winList v p i).length : ℚ) := by
  intro i
  induction i with
  | zero =>
    intro hi
    rw [winList_zero v p hi]
    simp [accAt]
  | succ i ih =>
    intro hi
    have hii : i < v.length := by omega
    have hlen_i := winList_length v p i hii
    show psaStep v p (p : ℚ) (i + 1) (v.getD (i + 1) 0)
        (accAt (fun x => x * x) (psaStep v p (p : ℚ)) v i) = _
    rw [ih hii]
    by_cases h : p = 0 ∨ i + 1 < p
    · have hn : (winList v p i).length = i + 1 := by
        rw [hlen_i]
        rcases h with h | h
        · rw [if_pos h]
        · rw [if_neg (by omega)]
          omega
      rw [winList_grow v p i hi h]
      unfold psaStep
      rw [if_pos h, List.map_append, List.sum_append, List.map_cons, List.sum_cons,
        List.map_nil, List.sum_nil, List.length_append, hn]
      simp only [List.length_cons, List.length_nil]
      have hq1 : ((i : ℚ) + 1) ≠ 0 := by positivity
      push_cast
      field_simp
      ring
    · push_neg at h
      obtain ⟨hp, hple⟩ := h
      obtain ⟨hw1, hw2⟩ := winList_slide v p i hi hp hple
      have hn : (winList v p i).length = p := by
        rw [hlen_i, if_neg hp]
        omega
      have hn1 : (winList v p (i + 1)).length = p := by
        rw [winList_length v p (i + 1) hi, if_neg hp]
        omega
      have hsum : ((winList v p i).map (fun y => y * y)).sum =
          v.getD (i + 1 - p) 0 * v.getD (i + 1 - p) 0 +
            ((winList v p i).tail.map (fun y => y * y)).sum := by
        conv_lhs => rw [hw2]
        rw [List.map_cons, List.sum_cons]
      have hpq : ((p : ℚ)) ≠ 0 := Nat.cast_ne_zero.mpr hp
      unfold psaStep
      rw [if_neg (by omega), hsum, hn, hn1, hw1, List.map_append, List.sum_append,
        List.map_cons, List.sum_cons, List.map_nil, List.sum_nil]
      field_simp
      ring

/-! ## Claim C1 and C2: sum and simple moving average against the window -/

theorem sumLoop_spec (v : List ℚ) (p : ℕ) :
    aggLoop (fun x => x) (sumStep v p) 0 none v =
      (List.range v.length).map (fun i => (winList v p i).sum) := by
  rw [aggLoop_eq_map]
  exact List.map_congr_left (fun i hi => sum_accAt v p i (List.mem_range.mp hi))

theorem smaLoop_spec (v : List ℚ) (p : ℕ) :
    aggLoop (fun x => x) (smaStep v p (p : ℚ)) 0 none v =
      (List.range v.length).map
        (fun i => (winList v p i).sum / ((winList v p i).length : ℚ)) := by
  rw [aggLoop_eq_map]
  exact List.map_congr_left (fun i hi => sma_accAt v p i (List.mem_range.mp hi))

theorem psaLoop_spec (v : List ℚ) (p : ℕ) :
    aggLoop (fun x => x * x) (psaStep v p (p : ℚ)) 0 none v =
      (List.range v.length).map
        (fun i => ((winList v p i).map (fun y => y * y)).sum / ((winList v p i).length : ℚ)) := by
  rw [aggLoop_eq_map]
  exact List.map_congr_left (fun i hi => psa_accAt v p i (List.mem_range.mp hi))

/-- C1: for every value sequence `v` and window period `1 ≤ p ≤ len v`, the
entry of `sma_values v p` at every index `i` is exactly (over `ℚ`) the
arithmetic mean of the trailing window `v[max(0, i-p+1) ..= i]`: the warm-up
update `acc += (newx - acc)/(bar+1)` and the steady-state update
`acc += (newx - v[bar-p])/p` together reproduce the window mean. -/
theorem sma_values_window_mean (v : List ℚ) (p : ℕ) (h1 : 1 ≤ p) (h2 : p ≤ v.length) :
    sma_values v (some (p : ℚ)) =
      .ok ((List.range v.length).map fun i =>
        (winList v p i).sum / ((winList v p i).length : ℚ)) := by
  unfold sma_values
  rw [checkPeriod_natCast p h1]
  show Except.ok (aggLoop (fun x => x) (smaStep v p (periodN (some (p : ℚ)))) 0 none v) = _
  rw [show periodN (some (p : ℚ)) = (p : ℚ) from rfl, smaLoop_spec v p]

/-- Witness for C1 at `v = [1, 2, 3]`, `p = 2`. -/
theorem sma_values_window_mean_witness :
    1 ≤ 2 ∧ 2 ≤ [(1 : ℚ), 2, 3].length ∧
      sma_values [(1 : ℚ), 2, 3] (some ((2 : ℕ) : ℚ)) =
        .ok ((List.range [(1 : ℚ), 2, 3].length).map fun i =>
          (winList [(1 : ℚ), 2, 3] 2 i).sum / ((winList [(1 : ℚ), 2, 3] 2 i).length : ℚ)) :=
  ⟨by omega, by decide, sma_values_window_mean [(1 : ℚ), 2, 3] 2 (by omega) (by decide)⟩

/-- C2: `sum_values v none` is the sequence of prefix sums, and for a window
`1 ≤ p ≤ len v`, `sum_values v p` is the sequence of trailing-window sums. -/
theorem sum_values_window_sum (v : List ℚ) (p : ℕ) (h1 : 1 ≤ p) (h2 : p ≤ v.length) :
    sum_values v none = .ok ((List.range v.length).map fun i => (v.take (i + 1)).sum) ∧
      sum_values v (some (p : ℚ)) =
        .ok ((List.range v.length).map fun i => (winList v p i).sum) := by
  constructor
  · unfold sum_values
    rw [show checkPeriod none = Except.ok 0 from rfl]
    show Except.ok (aggLoop (fun x => x) (sumStep v 0) 0 none v) = _
    rw [sumLoop_spec v 0]
    exact congrArg Except.ok (List.map_congr_left fun i _ => by rw [winList, if_pos rfl])
  · unfold sum_values
    rw [checkPeriod_natCast p h1]
    show Except.ok (aggLoop (fun x => x) (sumStep v p) 0 none v) = _
    rw [sumLoop_spec v p]

/-- Witness for C2 at `v = [1, 2, 3]`, `p = 2`. -/
theorem sum_values_window_sum_witness :
    1 ≤ 2 ∧ 2 ≤ [(1 : ℚ), 2, 3].length ∧
      (sum_values [(1 : ℚ), 2, 3] none =
          .ok ((List.range [(1 : ℚ), 2, 3].length).map fun i =>
            ([(1 : ℚ), 2, 3].take (i + 1)).sum) ∧
        sum_values [(1 : ℚ), 2, 3] (some ((2 : ℕ) : ℚ)) =
          .ok ((List.range [(1 : ℚ), 2, 3].length).map fun i =>
            (winList [(1 : ℚ), 2, 3] 2 i).sum)) :=
  ⟨by omega, by decide, sum_values_window_sum [(1 : ℚ), 2, 3] 2 (by omega) (by decide)⟩

/-! ## Variance machinery (claims C5 and C9) -/

theorem sizeAt_eq_winLen (v : List ℚ) (p i : ℕ) (hi : i < v.length) :
    sizeAt p i = (winList v p i).length := by
  rw [winList_length v p i hi]
  unfold sizeAt
  split_ifs with h h1 h1 <;> omega

theorem varbasesOut_getD_zero (v : List ℚ) (p : ℕ) (pop : Bool) (hv : 0 < v.length) :
    (varbasesOut v p pop).getD 0 0 = 0 := by
  unfold varbasesOut
  rw [getD_map_range _ _ _ hv]
  simp [varbasesFun]

theorem varbasesOut_val (v : List ℚ) (p : ℕ) (pop : Bool) (i : ℕ) (hi : i < v.length)
    (h0 : i ≠ 0) :
    (varbasesOut v p pop).getD i 0 =
      (((winList v p i).map (fun y => y * y)).sum -
          (winList v p i).sum * (winList v p i).sum / ((winList v p i).length : ℚ)) /
        (((winList v p i).length : ℚ) - if pop then 0 else 1) := by
  unfold varbasesOut
  rw [getD_map_range _ _ _ hi]
  unfold varbasesFun
  rw [if_neg h0]
  have hs : (aggLoop (fun x => x) (smaStep v p (p : ℚ)) 0 none v).getD i 0 =
      (winList v p i).sum / ((winList v p i).length : ℚ) := by
    rw [smaLoop_spec v p, getD_map_range _ _ _ hi]
  have hq : (aggLoop (fun x => x * x) (psaStep v p (p : ℚ)) 0 none v).getD i 0 =
      ((winList v p i).map (fun y => y * y)).sum / ((winList v p i).length : ℚ) := by
    rw [psaLoop_spec v p, getD_map_range _ _ _ hi]
  rw [hs, hq, sizeAt_eq_winLen v p i hi]
  have hn : ((winList v p i).length : ℚ) ≠ 0 := by
    have h1 := winList_ne_nil v p i hi
    have h2 : 0 < (winList v p i).length := List.length_pos.mpr h1
    positivity
  congr 1
  field_simp

theorem two_mul_sum_le (x : ℚ) (l : List ℚ) :
    2 * x * l.sum ≤ (l.length : ℚ) * (x * x) + (l.map (fun y => y * y)).sum := by
  induction l with
  | nil => simp
  | cons y t ih =>
    simp only [List.sum_cons, List.map_cons, List.length_cons]
    push_cast
    nlinarith [sq_nonneg (x - y)]

theorem sq_sum_le_len_mul (l : List ℚ) :
    l.sum * l.sum ≤ (l.length : ℚ) * (l.map (fun y => y * y)).sum := by
  induction l with
  | nil => simp
  | cons y t ih =>
    simp only [List.sum_cons, List.map_cons, List.length_cons]
    push_cast
    nlinarith [two_mul_sum_le y t]

theorem varbasesOut_entry_nonneg (v : List ℚ) (p : ℕ) (pop : Bool) (i : ℕ)
    (hi : i < v.length) : 0 ≤ (varbasesOut v p pop).getD i 0 := by
  rcases Nat.eq_zero_or_pos i with h0 | h0
  · rw [h0, varbasesOut_getD_zero v p pop (by omega)]
  · rw [varbasesOut_val v p pop i hi (by omega)]
    have hpos : 0 < (winList v p i).length :=
      List.length_pos.mpr (winList_ne_nil v p i hi)
    have hnq : (0 : ℚ) < ((winList v p i).length : ℚ) := by positivity
    have hA : 0 ≤ ((winList v p i).map (fun y => y * y)).sum -
        (winList v p i).sum * (winList v p i).sum / ((winList v p i).length : ℚ) := by
      have hcs := sq_sum_le_len_mul (winList v p i)
      rw [sub_nonneg, div_le_iff₀ hnq]
      linarith
    cases pop with
    | true =>
      have hif : (((winList v p i).length : ℚ) - if (true : Bool) = true then 0 else 1) =
          ((winList v p i).length : ℚ) := by norm_num
      rw [hif]
      exact div_nonneg hA (le_of_lt hnq)
    | false =>
      have hif : (((winList v p i).length : ℚ) - if (false : Bool) = true then 0 else 1) =
          ((winList v p i).length : ℚ) - 1 := by norm_num
      rw [hif]
      rcases Nat.lt_or_ge (winList v p i).length 2 with hlen | hlen
      · have hone : (winList v p i).length = 1 := by omega
        obtain ⟨a, ha⟩ := List.length_eq_one.mp hone
        rw [ha]
        simp only [List.map_cons, List.map_nil, List.sum_cons, List.sum_nil,
          List.length_cons, List.length_nil]
        norm_num
      · have hd : (0 : ℚ) ≤ ((winList v p i).length : ℚ) - 1 := by
          have : (2 : ℚ) ≤ ((winList v p i).length : ℚ) := by exact_mod_cast hlen
          linarith
        exact div_nonneg hA hd

theorem varbasesOut_val_pop (v : List ℚ) (p i : ℕ) (hi : i < v.length) (h0 : i ≠ 0) :
    (varbasesOut v p true).getD i 0 =
      (((winList v p i).map (fun y => y * y)).sum -
          (winList v p i).sum * (winList v p i).sum / ((winList v p i).length : ℚ)) /
        ((winList v p i).length : ℚ) := by
  rw [varbasesOut_val v p true i hi h0]
  norm_num

theorem varbasesOut_val_samp (v : List ℚ) (p i : ℕ) (hi : i < v.length) (h0 : i ≠ 0) :
    (varbasesOut v p false).getD i 0 =
      (((winList v p i).map (fun y => y * y)).sum -
          (winList v p i).sum * (winList v p i).sum / ((winList v p i).length : ℚ)) /
        (((winList v p i).length : ℚ) - 1) := by
  rw [varbasesOut_val v p false i hi h0]
  norm_num

theorem varbases_eq_loop (v : List ℚ) (pq : Option ℚ) (p : ℕ)
    (hcp : checkPeriod pq = .ok p) (pop : Bool) :
    varbases v pq pop = varbasesLoop v p pop := by
  unfold varbases
  rw [hcp]

theorem varbasesOut_all_nonneg (v : List ℚ) (p : ℕ) (pop : Bool) :
    ∀ x ∈ varbasesOut v p pop, 0 ≤ x := by
  intro x hx
  obtain ⟨i, hi, hix⟩ := List.mem_iff_getElem.mp hx
  have hiv : i < v.length := by
    have hlen : (varbasesOut v p pop).length = v.length := by
      unfold varbasesOut
      simp
    omega
  have hnn := varbasesOut_entry_nonneg v p pop i hiv
  rw [List.getD_eq_getElem _ 0 hi, hix] at hnn
  exact hnn

theorem mapExcept_eq_map {α β : Type} (f : α → Except String β) (g : α → β) (l : List α)
    (h : ∀ x ∈ l, f x = .ok (g x)) : mapExcept f l = .ok (l.map g) := by
  induction l with
  | nil => rfl
  | cons x t ih =>
    unfold mapExcept
    rw [h x (by simp), ih (fun y hy => h y (by simp [hy]))]
    rfl

theorem sizeAt_pos (p bar : ℕ) : 1 ≤ sizeAt p bar := by
  unfold sizeAt
  split_ifs with h <;> omega

theorem sizeAt_one (i : ℕ) : sizeAt 1 i = 1 := by
  unfold sizeAt
  rcases Nat.eq_zero_or_pos i with h | h
  · subst h
    rw [if_pos (Or.inr (by omega))]
  · rw [if_neg (by omega)]

theorem sizeAt_ge_two (p bar : ℕ) (hbar : bar ≠ 0) (hp : p ≠ 1) : 2 ≤ sizeAt p bar := by
  unfold sizeAt
  split_ifs with h <;> omega

theorem varbasesLoop_ok (v : List ℚ) (p : ℕ) (pop : Bool)
    (h : pop = true ∨ p ≠ 1 ∨ v.length ≤ 1) :
    varbasesLoop v p pop = .ok (varbasesOut v p pop) := by
  unfold varbasesLoop varbasesOut
  apply mapExcept_eq_map
  intro bar hbar
  have hblt : bar < v.length := List.mem_range.mp hbar
  unfold varbasesCell
  rcases Nat.eq_zero_or_pos bar with h0 | h0
  · subst h0
    simp [varbasesFun]
  · rw [if_neg (by omega)]
    have hdiv : ¬ ((sizeAt p bar : ℚ) - (if pop then 0 else 1) = 0) := by
      cases pop with
      | true =>
        intro hc
        norm_num at hc
        have := sizeAt_pos p bar
        omega
      | false =>
        have hp : p ≠ 1 := by
          rcases h with h | h | h
          · cases h
          · exact h
          · omega
        intro hc
        rw [show (if (false : Bool) = true then (0 : ℚ) else 1) = 1 from by norm_num] at hc
        have hs1 : (sizeAt p bar : ℚ) = 1 := by linarith
        have hs2 : sizeAt p bar = 1 := by exact_mod_cast hs1
        have := sizeAt_ge_two p bar (by omega) hp
        omega
    rw [if_neg hdiv]

theorem varbasesLoop_samp_p1_err (v : List ℚ) (hlen : 2 ≤ v.length) :
    varbasesLoop v 1 false = .error "float division by zero" := by
  obtain ⟨n, hn⟩ : ∃ n, v.length = n + 2 := ⟨v.length - 2, by omega⟩
  unfold varbasesLoop
  rw [hn, List.range_eq_range', List.range'_succ 0 (n + 1) 1, List.range'_succ 1 n 1]
  have hc0 : varbasesCell v 1 false 0 = .ok 0 := rfl
  have hc1 : varbasesCell v 1 false 1 = .error "float division by zero" := by
    unfold varbasesCell
    have hdiv : (sizeAt 1 1 : ℚ) - (if (false : Bool) = true then 0 else 1) = 0 := by
      rw [sizeAt_one 1]
      norm_num
    rw [if_neg (by omega), if_pos hdiv]
  unfold mapExcept
  rw [hc0]
  unfold mapExcept
  rw [hc1]

theorem varbases_pop_eq (v : List ℚ) (pq : Option ℚ) (p : ℕ)
    (hcp : checkPeriod pq = .ok p) :
    varbases v pq true = .ok (varbasesOut v p true) := by
  rw [varbases_eq_loop v pq p hcp true]
  exact varbasesLoop_ok v p true (Or.inl rfl)

theorem varbases_samp_eq (v : List ℚ) (pq : Option ℚ) (p : ℕ)
    (hcp : checkPeriod pq = .ok p) (h : p ≠ 1 ∨ v.length ≤ 1) :
    varbases v pq false = .ok (varbasesOut v p false) := by
  rw [varbases_eq_loop v pq p hcp false]
  exact varbasesLoop_ok v p false (Or.inr h)

theorem mapExcept_mathSqrt_ok (l : List ℚ) (h : ∀ x ∈ l, 0 ≤ x) :
    mapExcept mathSqrt l = .ok (l.map Rat.sqrt) := by
  induction l with
  | nil => rfl
  | cons x t ih =>
    have hx : mathSqrt x = Except.ok (Rat.sqrt x) := by
      unfold mathSqrt
      rw [if_neg (not_lt.mpr (h x (by simp)))]
    have ht : mapExcept mathSqrt t = .ok (t.map Rat.sqrt) :=
      ih (fun y hy => h y (by simp [hy]))
    unfold mapExcept
    rw [hx, ht]
    rfl

/-- C5: at every step whose window size `n = sizeAt p i` (`bar + 1` during
warm-up, `period` at steady state) exceeds `1`, the sample and population
variance sequences satisfy `var[i] = varp[i] * n / (n - 1)` exactly, and
both sequences are `0` at the first step. -/
theorem var_varp_ratio (v : List ℚ) (pq : Option ℚ) (p : ℕ)
    (hcp : checkPeriod pq = .ok p) (i : ℕ) (hi : i < v.length)
    (hn : 1 < sizeAt p i) :
    ∃ lv lp, var_values v pq = .ok lv ∧ varp_values v pq = .ok lp ∧
      lv.getD i 0 = lp.getD i 0 * (sizeAt p i : ℚ) / ((sizeAt p i : ℚ) - 1) ∧
      lv.getD 0 0 = 0 ∧ lp.getD 0 0 = 0 := by
  have hvl : 0 < v.length := by omega
  have h0 : i ≠ 0 := by
    intro h
    have hs0 : sizeAt p 0 = 1 := by
      unfold sizeAt
      rw [if_pos (by omega)]
    rw [h, hs0] at hn
    omega
  have hp1 : p ≠ 1 := by
    intro h
    rw [h, sizeAt_one i] at hn
    omega
  refine ⟨varbasesOut v p false, varbasesOut v p true,
    (by unfold var_values; exact varbases_samp_eq v pq p hcp (Or.inl hp1)),
    (by unfold varp_values; exact varbases_pop_eq v pq p hcp), ?_,
    varbasesOut_getD_zero v p false hvl, varbasesOut_getD_zero v p true hvl⟩
  rw [varbasesOut_val_samp v p i hi h0, varbasesOut_val_pop v p i hi h0,
    sizeAt_eq_winLen v p i hi]
  have hgt : (1 : ℚ) < ((winList v p i).length : ℚ) := by
    rw [sizeAt_eq_winLen v p i hi] at hn
    exact_mod_cast hn
  rw [div_mul_cancel₀ _ (by linarith)]

/-- Witness for C5 at `v = [1, 2, 3]`, period `2`, step `i = 2`. -/
theorem var_varp_ratio_witness :
    checkPeriod (some (2 : ℚ)) = .ok 2 ∧ 2 < [(1 : ℚ), 2, 3].length ∧ 1 < sizeAt 2 2 ∧
      (∃ lv lp, var_values [(1 : ℚ), 2, 3] (some (2 : ℚ)) = .ok lv ∧
        varp_values [(1 : ℚ), 2, 3] (some (2 : ℚ)) = .ok lp ∧
        lv.getD 2 0 = lp.getD 2 0 * ((sizeAt 2 2 : ℕ) : ℚ) / (((sizeAt 2 2 : ℕ) : ℚ) - 1) ∧
        lv.getD 0 0 = 0 ∧ lp.getD 0 0 = 0) :=
  ⟨by rfl, by decide, by decide,
    var_varp_ratio [(1 : ℚ), 2, 3] (some (2 : ℚ)) 2 (by rfl) 2 (by decide) (by decide)⟩

/-- C9: for every input and every valid period, every element `varp_values`
produces is non-negative over exact arithmetic, and so is every element
`var_values` produces whenever it returns a result (at period `1` with two
or more values the sample variants abort with ZeroDivisionError before
producing elements); consequently `stdp_values` and `std_values` only ever
take square roots of non-negative arguments and the `math.sqrt`
domain-error branch is unreachable. -/
theorem variance_nonneg_sqrt_ok (v : List ℚ) (pq : Option ℚ) (p : ℕ)
    (hcp : checkPeriod pq = .ok p) :
    (∃ l, varp_values v pq = .ok l ∧ ∀ x ∈ l, 0 ≤ x) ∧
      (∀ l, var_values v pq = .ok l → ∀ x ∈ l, 0 ≤ x) ∧
      isOkP (stdp_values v pq) ∧
      stdp_values v pq ≠ .error "math domain error" ∧
      std_values v pq ≠ .error "math domain error" := by
  have hstdp : stdp_values v pq = .ok ((varbasesOut v p true).map Rat.sqrt) := by
    unfold stdp_values
    rw [varbases_pop_eq v pq p hcp]
    exact mapExcept_mathSqrt_ok (varbasesOut v p true) (varbasesOut_all_nonneg v p true)
  refine ⟨⟨varbasesOut v p true, varbases_pop_eq v pq p hcp,
      varbasesOut_all_nonneg v p true⟩, ?_, ⟨_, hstdp⟩, ?_, ?_⟩
  · intro l hl
    unfold var_values at hl
    by_cases hbad : p = 1 ∧ 2 ≤ v.length
    · obtain ⟨hb1, hb2⟩ := hbad
      rw [varbases_eq_loop v pq p hcp false, hb1, varbasesLoop_samp_p1_err v hb2] at hl
      cases hl
    · rw [varbases_samp_eq v pq p hcp (by omega)] at hl
      rw [← Except.ok.inj hl]
      exact varbasesOut_all_nonneg v p false
  · rw [hstdp]
    intro hc
    cases hc
  · by_cases hbad : p = 1 ∧ 2 ≤ v.length
    · obtain ⟨hb1, hb2⟩ := hbad
      have herr : std_values v pq = .error "float division by zero" := by
        unfold std_values
        rw [varbases_eq_loop v pq p hcp false, hb1, varbasesLoop_samp_p1_err v hb2]
      rw [herr]
      intro hc
      exact absurd (Except.error.inj hc) (by decide)
    · have hok : std_values v pq = .ok ((varbasesOut v p false).map Rat.sqrt) := by
        unfold std_values
        rw [varbases_samp_eq v pq p hcp (by omega)]
        exact mapExcept_mathSqrt_ok (varbasesOut v p false)
          (varbasesOut_all_nonneg v p false)
      rw [hok]
      intro hc
      cases hc

/-- Witness for C9 at `v = [1, 2, 3]`, period `2`. -/
theorem variance_nonneg_sqrt_ok_witness :
    checkPeriod (some (2 : ℚ)) = .ok 2 ∧
      ((∃ l, varp_values [(1 : ℚ), 2, 3] (some (2 : ℚ)) = .ok l ∧ ∀ x ∈ l, 0 ≤ x) ∧
        (∀ l, var_values [(1 : ℚ), 2, 3] (some (2 : ℚ)) = .ok l → ∀ x ∈ l, 0 ≤ x) ∧
        isOkP (stdp_values [(1 : ℚ), 2, 3] (some (2 : ℚ))) ∧
        stdp_values [(1 : ℚ), 2, 3] (some (2 : ℚ)) ≠ .error "math domain error" ∧
        std_values [(1 : ℚ), 2, 3] (some (2 : ℚ)) ≠ .error "math domain error") :=
  ⟨by rfl, variance_nonneg_sqrt_ok [(1 : ℚ), 2, 3] (some (2 : ℚ)) 2 (by rfl)⟩

/-! ## Claims C10, C7, C8: smoothing independence and argument validation -/

theorem accAt_congr (seed1 seed2 : ℚ → ℚ) (step1 step2 : ℕ → ℚ → ℚ → ℚ) (v : List ℚ)
    (hseed : ∀ x, seed1 x = seed2 x)
    (hstep : ∀ bar x acc, bar ≠ 0 → step1 bar x acc = step2 bar x acc) :
    ∀ i, accAt seed1 step1 v i = accAt seed2 step2 v i := by
  intro i
  induction i with
  | zero => exact hseed _
  | succ i ih =>
    show step1 (i + 1) (v.getD (i + 1) 0) (accAt seed1 step1 v i) = _
    rw [ih]
    exact hstep _ _ _ (by omega)

theorem aggLoop_congr (seed1 seed2 : ℚ → ℚ) (step1 step2 : ℕ → ℚ → ℚ → ℚ) (v : List ℚ)
    (hseed : ∀ x, seed1 x = seed2 x)
    (hstep : ∀ bar x acc, bar ≠ 0 → step1 bar x acc = step2 bar x acc) :
    aggLoop seed1 step1 0 none v = aggLoop seed2 step2 0 none v := by
  rw [aggLoop_eq_map, aggLoop_eq_map]
  exact List.map_congr_left fun i _ => accAt_congr seed1 seed2 step1 step2 v hseed hstep i

theorem emaLoop_no_period_eq (v : List ℚ) (s : ℚ) :
    aggLoop (fun x => x) (emaStep 0 s) 0 none v =
      aggLoop (fun x => x) (smaStep v 0 (periodN none)) 0 none v := by
  apply aggLoop_congr
  · intro x
    rfl
  · intro bar x acc _
    unfold emaStep smaStep
    rw [if_pos (Or.inl rfl), if_pos (Or.inl rfl)]

theorem ema_values_none_eq (v : List ℚ) (s : Option ℚ) :
    ema_values v none s =
      Except.ok (aggLoop (fun x => x) (smaStep v 0 (periodN none)) 0 none v) := by
  show Except.ok (aggLoop (fun x => x) (emaStep 0 (s.getD 0)) 0 none v) = _
  rw [emaLoop_no_period_eq v (s.getD 0)]

theorem ema_values_zero_eq (v : List ℚ) (s : Option ℚ) :
    ema_values v (some 0) s =
      Except.ok (aggLoop (fun x => x) (smaStep v 0 (periodN none)) 0 none v) := by
  simp only [ema_values]
  rw [if_pos trivial, emaLoop_no_period_eq v (s.getD 0)]

/-- C10: with no window (period `None` or `0`) the output of `ema_values` is
independent of the smoothing argument, and equals the cumulative mean
sequence `sma_values v None`: the smoothing factor is never consulted
without a window. -/
theorem ema_no_period_ignores_smoothing (v : List ℚ) (s1 s2 : Option ℚ) :
    ema_values v none s1 = ema_values v none s2 ∧
      ema_values v (some 0) s1 = ema_values v none s2 ∧
      ema_values v none s1 = sma_values v none := by
  have hsma : sma_values v none =
      Except.ok (aggLoop (fun x => x) (smaStep v 0 (periodN none)) 0 none v) := rfl
  exact ⟨(ema_values_none_eq v s1).trans (ema_values_none_eq v s2).symm,
    (ema_values_zero_eq v s1).trans (ema_values_none_eq v s2).symm,
    (ema_values_none_eq v s1).trans hsma.symm⟩

theorem checkPeriod_err (q : ℚ) (h0 : q ≠ 0) (h1 : q < 1) :
    checkPeriod (some q) = .error "period must be 1 or greater" := by
  simp only [checkPeriod]
  rw [if_neg h0, if_pos h1]

theorem checkPeriod_ok_ge_one (q : ℚ) (h1 : 1 ≤ q) : checkPeriod (some q) = .ok (pyInt q) := by
  have h0 : ¬ q = 0 := by
    intro h
    rw [h] at h1
    norm_num at h1
  simp only [checkPeriod]
  rw [if_neg h0, if_neg (not_lt.mpr h1)]

theorem notPeriodErr_of_eq_ok {α : Type} {e : Except String α} {a : α}
    (h : e = .ok a) : notPeriodErr e := by
  unfold notPeriodErr
  rw [h]
  intro hc
  cases hc

theorem notPeriodErr_of_eq_float {α : Type} {e : Except String α}
    (h : e = .error "float division by zero") : notPeriodErr e := by
  unfold notPeriodErr
  rw [h]
  intro hc
  exact absurd (Except.error.inj hc) (by decide)

/-- C7: every `*_values` operation raises the configuration error
ValueError("period must be 1 or greater") for a truthy period below `1`
(negative or fractional), before producing any result; for a period `≥ 1`
or an absent period the period argument is accepted by all of them — no
operation raises the period configuration error (the unrelated
ZeroDivisionError of the sample variance at period `1` is not a
period-validation failure). -/
theorem period_validation (v : List ℚ) (q : ℚ) :
    (q ≠ 0 → q < 1 → allPeriodError v (some q)) ∧
      (1 ≤ q → allPeriodAccepted v (some q)) ∧ allPeriodAccepted v none := by
  refine ⟨fun h0 h1 => ?_, fun h1 => ?_, ?_⟩
  · have hcp := checkPeriod_err q h0 h1
    have hvb : ∀ pop, varbases v (some q) pop = .error "period must be 1 or greater" := by
      intro pop
      unfold varbases
      rw [hcp]
    exact ⟨by unfold sum_values; rw [hcp], by unfold sma_values; rw [hcp],
      by simp only [ema_values]; rw [if_neg h0, if_pos h1],
      by unfold wwma_values; rw [hcp], by unfold psa_values; rw [hcp],
      by unfold var_values; rw [hvb false], by unfold varp_values; rw [hvb true],
      by unfold std_values; rw [hvb false], by unfold stdp_values; rw [hvb true],
      by unfold max_values; rw [hcp], by unfold min_values; rw [hcp],
      by unfold top_values; rw [hcp], by unfold bottom_values; rw [hcp]⟩
  · have hcp := checkPeriod_ok_ge_one q h1
    have h0 : ¬ q = 0 := by
      intro h
      rw [h] at h1
      norm_num at h1
    have hvarstd : notPeriodErr (var_values v (some q)) ∧
        notPeriodErr (std_values v (some q)) := by
      by_cases hbad : pyInt q = 1 ∧ 2 ≤ v.length
      · constructor
        · refine notPeriodErr_of_eq_float ?_
          unfold var_values
          rw [varbases_eq_loop v (some q) (pyInt q) hcp false, hbad.1]
          exact varbasesLoop_samp_p1_err v hbad.2
        · refine notPeriodErr_of_eq_float ?_
          unfold std_values
          rw [varbases_eq_loop v (some q) (pyInt q) hcp false, hbad.1,
            varbasesLoop_samp_p1_err v hbad.2]
      · have hcond : pyInt q ≠ 1 ∨ v.length ≤ 1 := by
          push_neg at hbad
          rcases Decidable.em (pyInt q = 1) with h | h
          · exact Or.inr (by have := hbad h; omega)
          · exact Or.inl h
        constructor
        · exact notPeriodErr_of_eq_ok
            (by unfold var_values; exact varbases_samp_eq v (some q) (pyInt q) hcp hcond)
        · exact notPeriodErr_of_eq_ok (by unfold std_values; rw [varbases_samp_eq v (some q) (pyInt q) hcp hcond]; exact mapExcept_mathSqrt_ok _ (varbasesOut_all_nonneg v (pyInt q) false))
    exact ⟨notPeriodErr_of_eq_ok (by unfold sum_values; rw [hcp]),
      notPeriodErr_of_eq_ok (by unfold sma_values; rw [hcp]),
      notPeriodErr_of_eq_ok (by simp only [ema_values]; rw [if_neg h0, if_neg (not_lt.mpr h1)]),
      notPeriodErr_of_eq_ok (by unfold wwma_values; rw [hcp]),
      notPeriodErr_of_eq_ok (by unfold psa_values; rw [hcp]),
      hvarstd.1,
      notPeriodErr_of_eq_ok
        (by unfold varp_values; exact varbases_pop_eq v (some q) (pyInt q) hcp),
      hvarstd.2,
      notPeriodErr_of_eq_ok
        (by unfold stdp_values; rw [varbases_pop_eq v (some q) (pyInt q) hcp]; exact mapExcept_mathSqrt_ok _ (varbasesOut_all_nonneg v (pyInt q) true)),
      notPeriodErr_of_eq_ok (by unfold max_values; rw [hcp]),
      notPeriodErr_of_eq_ok (by unfold min_values; rw [hcp]),
      notPeriodErr_of_eq_ok (by unfold top_values; rw [hcp]),
      notPeriodErr_of_eq_ok (by unfold bottom_values; rw [hcp])⟩
  · have hcp0 : checkPeriod none = .ok 0 := rfl
    exact ⟨notPeriodErr_of_eq_ok rfl, notPeriodErr_of_eq_ok rfl, notPeriodErr_of_eq_ok rfl,
      notPeriodErr_of_eq_ok rfl, notPeriodErr_of_eq_ok rfl,
      notPeriodErr_of_eq_ok
        (by unfold var_values; exact varbases_samp_eq v none 0 hcp0 (Or.inl (by omega))),
      notPeriodErr_of_eq_ok (by unfold varp_values; exact varbases_pop_eq v none 0 hcp0),
      notPeriodErr_of_eq_ok
        (by unfold std_values; rw [varbases_samp_eq v none 0 hcp0 (Or.inl (by omega))]; exact mapExcept_mathSqrt_ok _ (varbasesOut_all_nonneg v 0 false)),
      notPeriodErr_of_eq_ok
        (by unfold stdp_values; rw [varbases_pop_eq v none 0 hcp0]; exact mapExcept_mathSqrt_ok _ (varbasesOut_all_nonneg v 0 true)),
      notPeriodErr_of_eq_ok rfl, notPeriodErr_of_eq_ok rfl, notPeriodErr_of_eq_ok rfl,
      notPeriodErr_of_eq_ok rfl⟩

/-- Witness for C7: period `-2` is rejected, period `3` and an absent
period are accepted, on `v = [1]`. -/
theorem period_validation_witness :
    ((-2 : ℚ) ≠ 0 ∧ (-2 : ℚ) < 1 ∧ allPeriodError [(1 : ℚ)] (some (-2))) ∧
      ((1 : ℚ) ≤ 3 ∧ allPeriodAccepted [(1 : ℚ)] (some 3)) ∧
      allPeriodAccepted [(1 : ℚ)] none :=
  ⟨⟨by norm_num, by norm_num,
      (period_validation [(1 : ℚ)] (-2)).1 (by norm_num) (by norm_num)⟩,
    ⟨by norm_num, (period_validation [(1 : ℚ)] 3).2.1 (by norm_num)⟩,
    (period_validation [(1 : ℚ)] 3).2.2⟩

/-- C8 counterexample: the claim says a smoothing factor outside `[0, 1]`
raises "regardless of whether a period is supplied", but with no period the
smoothing validation is skipped entirely: `ema_values([0], None, 2)`
returns a result instead of raising. -/
theorem ema_smoothing_unchecked_counterexample :
    ema_values [(0 : ℚ)] none (some 2) = .ok [0] := rfl

/-- C8 (amended): only when a truthy period is supplied is the smoothing
factor validated: then a value outside `[0, 1]` raises the configuration
error, a value inside `[0, 1]` never does, and an absent smoothing factor
defaults to `2 / (period + 1)`.  With period `None` (or `0`) the smoothing
argument is ignored and never validated. -/
theorem ema_smoothing_validation (v : List ℚ) (q : ℚ) (hq : 1 ≤ q) (s : ℚ) :
    ((s < 0 ∨ 1 < s) → isErrP (ema_values v (some q) (some s))) ∧
      (0 ≤ s → s ≤ 1 → isOkP (ema_values v (some q) (some s))) ∧
      ema_values v (some q) none = ema_values v (some q) (some (2 / (q + 1))) ∧
      (∀ s2 : Option ℚ, ema_values v none s = ema_values v none s2) := by
  have h0 : ¬ q = 0 := by
    intro h
    rw [h] at hq
    norm_num at hq
  have h1 : ¬ q < 1 := not_lt.mpr hq
  refine ⟨fun hs => ?_, fun hs0 hs1 => ?_, ?_, ?_⟩
  · simp only [ema_values]
    rw [if_neg h0, if_neg h1, if_pos hs]
    exact ⟨_, rfl⟩
  · simp only [ema_values]
    rw [if_neg h0, if_neg h1, if_neg (by push_neg; exact ⟨hs0, hs1⟩)]
    exact ⟨_, rfl⟩
  · have hsm : ¬ (2 / (q + 1) < 0 ∨ 1 < 2 / (q + 1)) := by
      push_neg
      have hq1 : (0 : ℚ) < q + 1 := by linarith
      constructor
      · positivity
      · rw [div_le_one hq1]
        linarith
    simp only [ema_values]
    rw [if_neg h0, if_neg h1, if_neg h0, if_neg h1, if_neg hsm]
  · exact fun s2 => (ema_values_none_eq v (some s)).trans (ema_values_none_eq v s2).symm

/-- Witness for C8 (amended) at `q = 3`, smoothing `2` (rejected) and `1`
(accepted). -/
theorem ema_smoothing_validation_witness :
    (1 : ℚ) ≤ 3 ∧ isErrP (ema_values [(0 : ℚ)] (some 3) (some 2)) ∧
      isOkP (ema_values [(0 : ℚ)] (some 3) (some 1)) ∧
      ema_values [(0 : ℚ)] (some 3) none = ema_values [(0 : ℚ)] (some 3) (some (2 / (3 + 1))) :=
  ⟨by norm_num,
    (ema_smoothing_validation [(0 : ℚ)] 3 (by norm_num) 2).1 (by norm_num),
    (ema_smoothing_validation [(0 : ℚ)] 3 (by norm_num) 1).2.1 (by norm_num) (by norm_num),
    (ema_smoothing_validation [(0 : ℚ)] 3 (by norm_num) 2).2.2.1⟩

/-! ## Claim C3: output length equals input length -/

theorem aggLoop_length (seed : ℚ → ℚ) (step : ℕ → ℚ → ℚ → ℚ) (v : List ℚ) :
    (aggLoop seed step 0 none v).length = v.length := by
  rw [aggLoop_eq_map]
  simp

theorem osLoop_length {α : Type} (read : ℕ → List ℚ → α) (v : List ℚ) (p : ℕ) :
    ∀ (rest : List ℚ) (bar : ℕ) (recs : List ℚ),
      (osLoop read v p bar recs rest).length = rest.length := by
  intro rest
  induction rest with
  | nil =>
    intro bar recs
    rfl
  | cons x t ih =>
    intro bar recs
    simp only [osLoop, List.length_cons]
    rw [ih]

theorem checkPeriod_inv (pq : Option ℚ) (p : ℕ) (h : checkPeriod pq = .ok p) :
    pq = none ∨ (∃ q, pq = some q ∧ q = 0) ∨ (∃ q, pq = some q ∧ 1 ≤ q ∧ p = pyInt q) := by
  cases pq with
  | none => exact Or.inl rfl
  | some q =>
    simp only [checkPeriod] at h
    by_cases h0 : q = 0
    · exact Or.inr (Or.inl ⟨q, rfl, h0⟩)
    · rw [if_neg h0] at h
      by_cases h1 : q < 1
      · rw [if_pos h1] at h
        exact absurd h (by simp)
      · rw [if_neg h1] at h
        exact Or.inr (Or.inr ⟨q, rfl, not_lt.mp h1, (Except.ok.inj h).symm⟩)

/-- C3 (amended): for every input sequence (the empty one included) and
every valid configuration (validated period, smoothing inside `[0, 1]`, any
count), every `*_values` operation except the sample-variance pair returns
a list whose length equals the input length (empty input gives empty output
without error); `var_values` and `std_values` do so exactly when the period
is not `1` or fewer than two values are supplied, and otherwise abort with
Python ZeroDivisionError, returning no list at all. -/
theorem values_length_invariant (v : List ℚ) (pq : Option ℚ) (p : ℕ)
    (hcp : checkPeriod pq = .ok p) (s : ℚ) (hs0 : 0 ≤ s) (hs1 : s ≤ 1) (num : ℕ) :
    allValuesLen v pq (some s) num ∧
      (p ≠ 1 ∨ v.length ≤ 1 →
        okLen (var_values v pq) v.length ∧ okLen (std_values v pq) v.length) ∧
      (p = 1 → 2 ≤ v.length →
        var_values v pq = .error "float division by zero" ∧
          std_values v pq = .error "float division by zero") := by
  have hagg : ∀ seed step, (aggLoop seed step 0 none v).length = v.length :=
    fun seed step => aggLoop_length seed step v
  have hout : ∀ pop, (varbasesOut v p pop).length = v.length := by
    intro pop
    unfold varbasesOut
    simp
  have hema : okLen (ema_values v pq (some s)) v.length := by
    rcases checkPeriod_inv pq p hcp with h | ⟨q, hq, hq0⟩ | ⟨q, hq, hq1, hpq⟩
    · subst h
      exact ⟨_, rfl, hagg _ _⟩
    · subst hq
      subst hq0
      have heq : ema_values v (some 0) (some s) =
          Except.ok (aggLoop (fun x => x) (emaStep 0 ((some s).getD 0)) 0 none v) := by
        simp only [ema_values]
        rw [if_pos trivial]
      exact ⟨_, heq, hagg _ _⟩
    · subst hq
      have h0 : ¬ q = 0 := by
        intro h
        rw [h] at hq1
        norm_num at hq1
      have heq : ema_values v (some q) (some s) =
          Except.ok (aggLoop (fun x => x) (emaStep (pyInt q) s) 0 none v) := by
        simp only [ema_values]
        rw [if_neg h0, if_neg (not_lt.mpr hq1), if_neg (by push_neg; exact ⟨hs0, hs1⟩)]
      exact ⟨_, heq, hagg _ _⟩
  refine ⟨⟨⟨_, (by unfold sum_values; rw [hcp]), hagg _ _⟩,
    ⟨_, (by unfold sma_values; rw [hcp]), hagg _ _⟩, hema,
    ⟨_, (by unfold wwma_values; rw [hcp]), hagg _ _⟩,
    ⟨_, (by unfold psa_values; rw [hcp]), hagg _ _⟩,
    ⟨_, (by unfold varp_values; exact varbases_pop_eq v pq p hcp), hout true⟩,
    ⟨_, (by unfold stdp_values; rw [varbases_pop_eq v pq p hcp]; exact mapExcept_mathSqrt_ok _ (varbasesOut_all_nonneg v p true)),
      (by rw [List.length_map]; exact hout true)⟩,
    ⟨_, (by unfold max_values; rw [hcp]), osLoop_length _ v p v 0 []⟩,
    ⟨_, (by unfold min_values; rw [hcp]), osLoop_length _ v p v 0 []⟩,
    ⟨_, (by unfold top_values; rw [hcp]), osLoop_length _ v p v 0 []⟩,
    ⟨_, (by unfold bottom_values; rw [hcp]), osLoop_length _ v p v 0 []⟩⟩, ?_, ?_⟩
  · intro hcond
    have hvar : var_values v pq = .ok (varbasesOut v p false) := by
      unfold var_values
      exact varbases_samp_eq v pq p hcp hcond
    have hstd : std_values v pq = .ok ((varbasesOut v p false).map Rat.sqrt) := by
      unfold std_values
      rw [varbases_samp_eq v pq p hcp hcond]
      exact mapExcept_mathSqrt_ok _ (varbasesOut_all_nonneg v p false)
    exact ⟨⟨_, hvar, hout false⟩,
      ⟨_, hstd, (by rw [List.length_map]; exact hout false)⟩⟩
  · intro hp1 hlen2
    constructor
    · unfold var_values
      rw [varbases_eq_loop v pq p hcp false, hp1]
      exact varbasesLoop_samp_p1_err v hlen2
    · unfold std_values
      rw [varbases_eq_loop v pq p hcp false, hp1, varbasesLoop_samp_p1_err v hlen2]

/-- C3 counterexample: period `1` is a valid configuration, but
`var_values([1, 2], 1)` divides by `n = size - sample_adjust = 0` at the
second step and raises ZeroDivisionError, so no result list (of any length)
is returned. -/
theorem var_values_length_counterexample :
    var_values [(1 : ℚ), 2] (some 1) = .error "float division by zero" ∧
      ¬ okLen (var_values [(1 : ℚ), 2] (some 1)) [(1 : ℚ), 2].length := by
  have h : var_values [(1 : ℚ), 2] (some 1) = .error "float division by zero" := by
    unfold var_values
    rw [varbases_eq_loop [(1 : ℚ), 2] (some 1) 1 (by rfl) false]
    exact varbasesLoop_samp_p1_err [(1 : ℚ), 2] (by decide)
  refine ⟨h, ?_⟩
  intro hok
  obtain ⟨l, hl, _⟩ := hok
  rw [h] at hl
  cases hl

/-- Witness for C3 (amended) at `v = [1, 2, 3]`, period `2`, smoothing `1`,
count `2`. -/
theorem values_length_invariant_witness :
    checkPeriod (some (2 : ℚ)) = .ok 2 ∧ (0 : ℚ) ≤ 1 ∧ (1 : ℚ) ≤ 1 ∧
      (allValuesLen [(1 : ℚ), 2, 3] (some (2 : ℚ)) (some 1) 2 ∧
        ((2 : ℕ) ≠ 1 ∨ [(1 : ℚ), 2, 3].length ≤ 1 →
          okLen (var_values [(1 : ℚ), 2, 3] (some (2 : ℚ))) [(1 : ℚ), 2, 3].length ∧
            okLen (std_values [(1 : ℚ), 2, 3] (some (2 : ℚ))) [(1 : ℚ), 2, 3].length) ∧
        ((2 : ℕ) = 1 → 2 ≤ [(1 : ℚ), 2, 3].length →
          var_values [(1 : ℚ), 2, 3] (some (2 : ℚ)) = .error "float division by zero" ∧
            std_values [(1 : ℚ), 2, 3] (some (2 : ℚ)) = .error "float division by zero")) :=
  ⟨by rfl, by norm_num, by norm_num,
    values_length_invariant [(1 : ℚ), 2, 3] (some (2 : ℚ)) 2 (by rfl) 1 (by norm_num)
      (by norm_num) 2⟩

/-! ## Sorted-window machinery (claims C4 and C6) -/

theorem take_length_takeWhile (q : ℚ → Bool) (l : List ℚ) :
    l.take (l.takeWhile q).length = l.takeWhile q := by
  induction l with
  | nil => rfl
  | cons a t ih =>
    by_cases h : q a
    · simp [List.takeWhile_cons, h, ih]
    · simp [List.takeWhile_cons, h]

theorem drop_length_takeWhile (q : ℚ → Bool) (l : List ℚ) :
    l.drop (l.takeWhile q).length = l.dropWhile q := by
  induction l with
  | nil => rfl
  | cons a t ih =>
    by_cases h : q a
    · simp [List.takeWhile_cons, List.dropWhile_cons, h, ih]
    · simp [List.takeWhile_cons, List.dropWhile_cons, h]

theorem insort_eq (l : List ℚ) (x : ℚ) :
    insort l x = l.takeWhile (fun y => decide (y ≤ x)) ++
      x :: l.dropWhile (fun y => decide (y ≤ x)) := by
  simp only [insort]
  rw [take_length_takeWhile, drop_length_takeWhile]

theorem mem_takeWhile_le (x : ℚ) (l : List ℚ) (a : ℚ)
    (ha : a ∈ l.takeWhile (fun y => decide (y ≤ x))) : a ≤ x := by
  have h := List.mem_takeWhile_imp ha
  simpa using h

theorem sorted_dropWhile_lt (x : ℚ) (l : List ℚ) (hs : l.Sorted (· ≤ ·)) :
    ∀ b ∈ l.dropWhile (fun y => decide (y ≤ x)), x ≤ b := by
  induction l with
  | nil => simp
  | cons a t ih =>
    intro b hb
    rw [List.dropWhile_cons] at hb
    by_cases h : a ≤ x
    · rw [if_pos (by simpa using h)] at hb
      exact ih (List.Sorted.of_cons hs) b hb
    · rw [if_neg (by simpa using h)] at hb
      rcases List.mem_cons.mp hb with rfl | hb2
      · linarith [not_le.mp h]
      · have hab := List.rel_of_sorted_cons hs b hb2
        linarith [not_le.mp h]

theorem insort_sorted (l : List ℚ) (x : ℚ) (hs : l.Sorted (· ≤ ·)) :
    (insort l x).Sorted (· ≤ ·) := by
  rw [insort_eq]
  refine List.pairwise_append.mpr ⟨hs.sublist (List.takeWhile_sublist _), ?_, ?_⟩
  · exact List.pairwise_cons.mpr ⟨fun b hb => sorted_dropWhile_lt x l hs b hb,
      hs.sublist (List.dropWhile_sublist _)⟩
  · intro a ha b hb
    have hax := mem_takeWhile_le x l a ha
    rcases List.mem_cons.mp hb with rfl | hb2
    · exact hax
    · exact le_trans hax (sorted_dropWhile_lt x l hs b hb2)

theorem insort_perm (l : List ℚ) (x : ℚ) : List.Perm (insort l x) (x :: l) := by
  rw [insort_eq]
  refine List.perm_middle.trans ?_
  rw [List.takeWhile_append_dropWhile]

theorem eraseIdx_bisect (l : List ℚ) (x : ℚ) (hs : l.Sorted (· ≤ ·)) (hx : x ∈ l) :
    l.eraseIdx (bisect_left l x) = l.erase x := by
  induction l with
  | nil => simp at hx
  | cons a t ih =>
    by_cases h : a < x
    · have hbl : bisect_left (a :: t) x = bisect_left t x + 1 := by
        unfold bisect_left
        rw [List.takeWhile_cons, if_pos (by simpa using h)]
        rw [List.length_cons]
      have hne : ¬ a = x := by linarith
      have hxt : x ∈ t := by
        rcases List.mem_cons.mp hx with h2 | h2
        · exact absurd (h2 ▸ h) (lt_irrefl x)
        · exact h2
      rw [hbl]
      rw [show (a :: t).eraseIdx (bisect_left t x + 1) = a :: t.eraseIdx (bisect_left t x)
        from rfl]
      rw [List.erase_cons_tail (by simp [hne])]
      rw [ih (List.Sorted.of_cons hs) hxt]
    · have hbl : bisect_left (a :: t) x = 0 := by
        unfold bisect_left
        rw [List.takeWhile_cons, if_neg (by simpa using h)]
        rfl
      have hax : a = x := by
        rcases List.mem_cons.mp hx with rfl | h2
        · rfl
        · have h1 := List.rel_of_sorted_cons hs x h2
          have h2x := not_lt.mp h
          linarith
      subst hax
      rw [hbl, List.erase_cons_head]
      rfl

theorem foldl_max_spec (t : List ℚ) :
    ∀ a : ℚ, a ≤ t.foldl max a ∧ (∀ y ∈ t, y ≤ t.foldl max a) ∧
      (t.foldl max a = a ∨ t.foldl max a ∈ t) := by
  induction t with
  | nil =>
    intro a
    exact ⟨le_refl a, by simp, Or.inl rfl⟩
  | cons z t ih =>
    intro a
    simp only [List.foldl_cons]
    obtain ⟨h1, h2, h3⟩ := ih (max a z)
    refine ⟨le_trans (le_max_left a z) h1, ?_, ?_⟩
    · intro y hy
      rcases List.mem_cons.mp hy with rfl | hy2
      · exact le_trans (le_max_right a y) h1
      · exact h2 y hy2
    · rcases h3 with h | h
      · rcases max_choice a z with hm | hm
        · exact Or.inl (h.trans hm)
        · refine Or.inr ?_
          rw [h, hm]
          exact List.mem_cons_self z t
      · exact Or.inr (List.mem_cons_of_mem z h)

theorem foldl_min_spec (t : List ℚ) :
    ∀ a : ℚ, t.foldl min a ≤ a ∧ (∀ y ∈ t, t.foldl min a ≤ y) ∧
      (t.foldl min a = a ∨ t.foldl min a ∈ t) := by
  induction t with
  | nil =>
    intro a
    exact ⟨le_refl a, by simp, Or.inl rfl⟩
  | cons z t ih =>
    intro a
    simp only [List.foldl_cons]
    obtain ⟨h1, h2, h3⟩ := ih (min a z)
    refine ⟨le_trans h1 (min_le_left a z), ?_, ?_⟩
    · intro y hy
      rcases List.mem_cons.mp hy with rfl | hy2
      · exact le_trans h1 (min_le_right a y)
      · exact h2 y hy2
    · rcases h3 with h | h
      · rcases min_choice a z with hm | hm
        · exact Or.inl (h.trans hm)
        · refine Or.inr ?_
          rw [h, hm]
          exact List.mem_cons_self z t
      · exact Or.inr (List.mem_cons_of_mem z h)

theorem listMax_spec (l : List ℚ) (hne : l ≠ []) :
    listMax l ∈ l ∧ ∀ y ∈ l, y ≤ listMax l := by
  cases l with
  | nil => exact absurd rfl hne
  | cons a t =>
    obtain ⟨h1, h2, h3⟩ := foldl_max_spec t a
    rw [show listMax (a :: t) = t.foldl max a from rfl]
    refine ⟨?_, ?_⟩
    · rcases h3 with h | h
      · rw [h]
        exact List.mem_cons_self a t
      · exact List.mem_cons_of_mem a h
    · intro y hy
      rcases List.mem_cons.mp hy with rfl | hy2
      · exact h1
      · exact h2 y hy2

theorem listMin_spec (l : List ℚ) (hne : l ≠ []) :
    listMin l ∈ l ∧ ∀ y ∈ l, listMin l ≤ y := by
  cases l with
  | nil => exact absurd rfl hne
  | cons a t =>
    obtain ⟨h1, h2, h3⟩ := foldl_min_spec t a
    rw [show listMin (a :: t) = t.foldl min a from rfl]
    refine ⟨?_, ?_⟩
    · rcases h3 with h | h
      · rw [h]
        exact List.mem_cons_self a t
      · exact List.mem_cons_of_mem a h
    · intro y hy
      rcases List.mem_cons.mp hy with rfl | hy2
      · exact h1
      · exact h2 y hy2

theorem getLastD_cons_eq (b : ℚ) (l : List ℚ) (d : ℚ) : (b :: l).getLastD d = l.getLastD b := by
  cases l <;> simp [List.getLastD]

theorem sorted_getLastD_spec (l : List ℚ) :
    l.Sorted (· ≤ ·) → l ≠ [] → ∀ d, l.getLastD d ∈ l ∧ ∀ y ∈ l, y ≤ l.getLastD d := by
  induction l with
  | nil => intro _ hne; exact absurd rfl hne
  | cons a t ih =>
    intro hs _ d
    cases t with
    | nil => simp [List.getLastD]
    | cons b t2 =>
      rw [getLastD_cons_eq]
      obtain ⟨h1, h2⟩ := ih (List.Sorted.of_cons hs) (by simp) a
      refine ⟨List.mem_cons_of_mem a h1, ?_⟩
      intro y hy
      rcases List.mem_cons.mp hy with rfl | hy2
      · exact le_trans (List.rel_of_sorted_cons hs _ h1) (le_refl _)
      · exact h2 y hy2

theorem sorted_headD_spec (l : List ℚ) (hs : l.Sorted (· ≤ ·)) (hne : l ≠ []) :
    l.headD 0 ∈ l ∧ ∀ y ∈ l, l.headD 0 ≤ y := by
  cases l with
  | nil => exact absurd rfl hne
  | cons a t =>
    simp only [List.headD_cons]
    refine ⟨List.mem_cons_self a t, ?_⟩
    intro y hy
    rcases List.mem_cons.mp hy with rfl | h2
    · exact le_refl y
    · exact List.rel_of_sorted_cons hs y h2

theorem sortedWin_sorted (v : List ℚ) (p i : ℕ) : (sortedWin v p i).Sorted (· ≤ ·) :=
  List.sorted_insertionSort _ _

theorem sortedWin_perm (v : List ℚ) (p i : ℕ) :
    List.Perm (sortedWin v p i) (winList v p i) :=
  List.perm_insertionSort _ _

theorem sorted_perm_eq_sortedWin (v : List ℚ) (p i : ℕ) (l : List ℚ)
    (hs : l.Sorted (· ≤ ·)) (hperm : List.Perm l (winList v p i)) : l = sortedWin v p i :=
  List.eq_of_perm_of_sorted (hperm.trans (sortedWin_perm v p i).symm) hs
    (sortedWin_sorted v p i)

theorem osStep_eq (v : List ℚ) (p k : ℕ) (hk : k < v.length) (recs : List ℚ)
    (hrecs : (k = 0 ∧ recs = []) ∨ ∃ k0, k = k0 + 1 ∧ recs = sortedWin v p k0) :
    insort (if p ≠ 0 ∧ p ≤ k then recs.eraseIdx (bisect_left recs (v.getD (k - p) 0)) else recs)
      (v.getD k 0) = sortedWin v p k := by
  rcases hrecs with ⟨hk0, hrnil⟩ | ⟨k0, hkk, hr⟩
  · subst hk0
    subst hrnil
    rw [if_neg (by omega)]
    apply sorted_perm_eq_sortedWin
    · exact insort_sorted _ _ (by simp)
    · refine (insort_perm _ _).trans ?_
      rw [winList_zero v p (by omega)]
  · subst hkk
    subst hr
    by_cases hev : p ≠ 0 ∧ p ≤ k0 + 1
    · rw [if_pos hev]
      obtain ⟨hp, hple⟩ := hev
      obtain ⟨hw1, hw2⟩ := winList_slide v p k0 hk hp hple
      have hmem : v.getD (k0 + 1 - p) 0 ∈ sortedWin v p k0 :=
        (sortedWin_perm v p k0).mem_iff.mpr (by rw [hw2]; exact List.mem_cons_self _ _)
      rw [eraseIdx_bisect _ _ (sortedWin_sorted v p k0) hmem]
      apply sorted_perm_eq_sortedWin
      · exact insort_sorted _ _ ((sortedWin_sorted v p k0).sublist (List.erase_sublist _ _))
      · have herase : (winList v p k0).erase (v.getD (k0 + 1 - p) 0) = (winList v p k0).tail := by
          conv_lhs => rw [hw2]
          rw [List.erase_cons_head]
        have hperm1 : List.Perm ((sortedWin v p k0).erase (v.getD (k0 + 1 - p) 0))
            (winList v p k0).tail := by
          rw [← herase]
          exact (sortedWin_perm v p k0).erase _
        refine (insort_perm _ _).trans ?_
        rw [hw1]
        exact (List.Perm.cons _ hperm1).trans (List.perm_append_singleton _ _).symm
    · rw [if_neg hev]
      have hcond : p = 0 ∨ k0 + 1 < p := by omega
      have hgrow := winList_grow v p k0 hk hcond
      apply sorted_perm_eq_sortedWin
      · exact insort_sorted _ _ (sortedWin_sorted v p k0)
      · refine (insort_perm _ _).trans ?_
        rw [hgrow]
        exact (List.Perm.cons _ (sortedWin_perm v p k0)).trans
          (List.perm_append_singleton _ _).symm

theorem osLoop_drop_eq {α : Type} (read : ℕ → List ℚ → α) (v : List ℚ) (p : ℕ) :
    ∀ (n k : ℕ) (recs : List ℚ), v.length = k + n →
      ((k = 0 ∧ recs = []) ∨ ∃ k0, k = k0 + 1 ∧ recs = sortedWin v p k0) →
      osLoop read v p k recs (v.drop k) =
        (List.range' k n).map (fun i => read i (sortedWin v p i)) := by
  intro n
  induction n with
  | zero =>
    intro k recs hlen _
    rw [show k = v.length from by omega, List.drop_length]
    rfl
  | succ n ih =>
    intro k recs hlen hinv
    have hk : k < v.length := by omega
    have hdrop : v.drop k = v.getD k 0 :: v.drop (k + 1) := by
      rw [List.drop_eq_getElem_cons hk, List.getD_eq_getElem v 0 hk]
    rw [hdrop]
    simp only [osLoop]
    rw [osStep_eq v p k hk recs hinv, List.range'_succ k n 1, List.map_cons]
    congr 1
    exact ih (k + 1) (sortedWin v p k) (by omega) (Or.inr ⟨k, rfl, rfl⟩)

theorem osLoop_eq_map {α : Type} (read : ℕ → List ℚ → α) (v : List ℚ) (p : ℕ) :
    osLoop read v p 0 [] v =
      (List.range v.length).map (fun i => read i (sortedWin v p i)) := by
  have h := osLoop_drop_eq read v p v.length 0 [] (by omega) (Or.inl ⟨rfl, rfl⟩)
  rw [List.drop_zero] at h
  rw [h, List.range_eq_range']

/-- C4: for every period `p ≥ 1` (or no period, meaning the full prefix),
`max_values v p` is the sequence of trailing-window maxima and
`min_values v p` the sequence of trailing-window minima. -/
theorem max_min_window (v : List ℚ) (pq : Option ℚ) (p : ℕ)
    (hcp : checkPeriod pq = .ok p) :
    max_values v pq = .ok ((List.range v.length).map fun i => listMax (winList v p i)) ∧
      min_values v pq = .ok ((List.range v.length).map fun i => listMin (winList v p i)) := by
  constructor
  · unfold max_values
    rw [hcp]
    show Except.ok (osLoop (fun _ recs => recs.getLastD 0) v p 0 [] v) = _
    rw [osLoop_eq_map]
    refine congrArg Except.ok (List.map_congr_left fun i hi => ?_)
    have hiv := List.mem_range.mp hi
    have hne : winList v p i ≠ [] := winList_ne_nil v p i hiv
    have hsne : sortedWin v p i ≠ [] := by
      intro h
      apply hne
      have hp := sortedWin_perm v p i
      rw [h] at hp
      exact (hp.symm).eq_nil
    obtain ⟨hmem, hub⟩ :=
      sorted_getLastD_spec (sortedWin v p i) (sortedWin_sorted v p i) hsne 0
    obtain ⟨hmem2, hub2⟩ := listMax_spec (winList v p i) hne
    exact le_antisymm (hub2 _ ((sortedWin_perm v p i).mem_iff.mp hmem))
      (hub _ ((sortedWin_perm v p i).mem_iff.mpr hmem2))
  · unfold min_values
    rw [hcp]
    show Except.ok (osLoop (fun _ recs => recs.headD 0) v p 0 [] v) = _
    rw [osLoop_eq_map]
    refine congrArg Except.ok (List.map_congr_left fun i hi => ?_)
    have hiv := List.mem_range.mp hi
    have hne : winList v p i ≠ [] := winList_ne_nil v p i hiv
    have hsne : sortedWin v p i ≠ [] := by
      intro h
      apply hne
      have hp := sortedWin_perm v p i
      rw [h] at hp
      exact (hp.symm).eq_nil
    obtain ⟨hmem, hlb⟩ := sorted_headD_spec (sortedWin v p i) (sortedWin_sorted v p i) hsne
    obtain ⟨hmem2, hlb2⟩ := listMin_spec (winList v p i) hne
    exact le_antisymm (hlb _ ((sortedWin_perm v p i).mem_iff.mpr hmem2))
      (hlb2 _ ((sortedWin_perm v p i).mem_iff.mp hmem))

/-- Witness for C4 at `v = [3, 1, 2]`, period `2`. -/
theorem max_min_window_witness :
    checkPeriod (some (2 : ℚ)) = .ok 2 ∧
      (max_values [(3 : ℚ), 1, 2] (some (2 : ℚ)) =
          .ok ((List.range [(3 : ℚ), 1, 2].length).map fun i =>
            listMax (winList [(3 : ℚ), 1, 2] 2 i)) ∧
        min_values [(3 : ℚ), 1, 2] (some (2 : ℚ)) =
          .ok ((List.range [(3 : ℚ), 1, 2].length).map fun i =>
            listMin (winList [(3 : ℚ), 1, 2] 2 i))) :=
  ⟨by rfl, max_min_window [(3 : ℚ), 1, 2] (some (2 : ℚ)) 2 (by rfl)⟩

/-! ## Claim C6: top-N / bottom-N entries -/

/-- C6 counterexample: the claim makes the entry length `min(N, bar + 1)`,
"not limited by the window size".  With `v = [1, 2, 3]`, `period = 1`,
`N = 2`, the entry at step `bar = 2` is `[3]` of length `1` (the window
holds a single value), not `min(N, bar + 1) = 2`. -/
theorem top_values_length_counterexample :
    top_values [(1 : ℚ), 2, 3] (some 1) 2 = .ok [[1], [2], [3]] ∧
      ¬ ((([[(1 : ℚ)], [2], [3]] : List (List ℚ)).getD 2 []).length = min 2 (2 + 1)) := by
  constructor
  · rfl
  · decide

theorem sliceLastNeg_countIdx (L : List ℚ) (num i : ℕ) (hnum : 1 ≤ num)
    (hLi : L.length ≤ i + 1) :
    sliceLastNeg L (countIdx num i) = L.drop (L.length - min num L.length) := by
  unfold sliceLastNeg countIdx
  rcases Nat.lt_or_ge i (num - 1) with h | h
  · rw [if_pos h, if_neg (by omega), min_eq_right (by omega : L.length ≤ num)]
    congr 1
    omega
  · rw [if_neg (not_lt.mpr h), if_neg (by omega)]
    rcases le_or_lt num L.length with h2 | h2
    · rw [min_eq_left h2]
    · rw [min_eq_right h2.le]
      congr 1
      omega

theorem take_countIdx (L : List ℚ) (num i : ℕ) (hnum : 1 ≤ num) (hLi : L.length ≤ i + 1) :
    L.take (countIdx num i) = L.take (min num L.length) := by
  unfold countIdx
  rcases Nat.lt_or_ge i (num - 1) with h | h
  · rw [if_pos h, List.take_of_length_le (by omega),
      min_eq_right (by omega : L.length ≤ num), List.take_length]
  · rw [if_neg (not_lt.mpr h)]
    rcases le_or_lt num L.length with h2 | h2
    · rw [min_eq_left h2]
    · rw [min_eq_right h2.le, List.take_of_length_le h2.le, List.take_length]

/-- C6 (amended): for every sequence, validated period and count `N ≥ 1`,
the entry of `top_values` at step `i` is the trailing sorted window's last
`min(N, w)` elements and the entry of `bottom_values` its first `min(N, w)`
elements, where `w` is the number of values currently in the window
(`min(period, i + 1)` for a bounded window, `i + 1` otherwise); both entries
are ascending and have length `min(N, w)` — capped by the window size as
well as by the number of observations seen, not by the latter alone. -/
theorem top_bottom_window_order (v : List ℚ) (pq : Option ℚ) (p : ℕ)
    (hcp : checkPeriod pq = .ok p) (num : ℕ) (hnum : 1 ≤ num) (i : ℕ) (hi : i < v.length) :
    ∃ lt lb, top_values v pq num = .ok lt ∧ bottom_values v pq num = .ok lb ∧
      lt.getD i [] =
        (sortedWin v p i).drop ((winList v p i).length - min num (winList v p i).length) ∧
      lb.getD i [] = (sortedWin v p i).take (min num (winList v p i).length) ∧
      (lt.getD i []).length = min num (winList v p i).length ∧
      (lb.getD i []).length = min num (winList v p i).length ∧
      (lt.getD i []).Sorted (· ≤ ·) ∧ (lb.getD i []).Sorted (· ≤ ·) := by
  have hlen : (sortedWin v p i).length = (winList v p i).length :=
    (sortedWin_perm v p i).length_eq
  have hwin := winList_length v p i hi
  have hLi : (sortedWin v p i).length ≤ i + 1 := by
    rw [hlen, hwin]
    split_ifs <;> omega
  have hir : i < v.length := hi
  have htop : (osLoop (fun bar recs => sliceLastNeg recs (countIdx num bar)) v p 0 [] v).getD
      i [] = sliceLastNeg (sortedWin v p i) (countIdx num i) := by
    rw [osLoop_eq_map, getD_map_range _ _ _ hir]
  have hbot : (osLoop (fun bar recs => recs.take (countIdx num bar)) v p 0 [] v).getD i [] =
      (sortedWin v p i).take (countIdx num i) := by
    rw [osLoop_eq_map, getD_map_range _ _ _ hir]
  have hdropform : sliceLastNeg (sortedWin v p i) (countIdx num i) =
      (sortedWin v p i).drop
        ((winList v p i).length - min num (winList v p i).length) := by
    rw [← hlen]
    exact sliceLastNeg_countIdx (sortedWin v p i) num i hnum hLi
  have htakeform : (sortedWin v p i).take (countIdx num i) =
      (sortedWin v p i).take (min num (winList v p i).length) := by
    rw [← hlen]
    exact take_countIdx (sortedWin v p i) num i hnum hLi
  have hminle : min num (winList v p i).length ≤ (sortedWin v p i).length := by
    rw [hlen]
    omega
  refine ⟨_, _, (by unfold top_values; rw [hcp]), (by unfold bottom_values; rw [hcp]),
    ?_, ?_, ?_, ?_, ?_, ?_⟩
  · rw [htop, hdropform]
  · rw [hbot, htakeform]
  · rw [htop, hdropform, List.length_drop, hlen]
    omega
  · rw [hbot, htakeform, List.length_take, hlen]
    omega
  · rw [htop, hdropform]
    exact (sortedWin_sorted v p i).sublist (List.drop_sublist _ _)
  · rw [hbot, htakeform]
    exact (sortedWin_sorted v p i).sublist (List.take_sublist _ _)

/-- Witness for C6 (amended) at `v = [1, 2, 3]`, period `1`, `N = 2`,
step `i = 2`. -/
theorem top_bottom_window_order_witness :
    checkPeriod (some (1 : ℚ)) = .ok 1 ∧ 1 ≤ 2 ∧ 2 < [(1 : ℚ), 2, 3].length ∧
      (∃ lt lb, top_values [(1 : ℚ), 2, 3] (some (1 : ℚ)) 2 = .ok lt ∧
        bottom_values [(1 : ℚ), 2, 3] (some (1 : ℚ)) 2 = .ok lb ∧
        lt.getD 2 [] = (sortedWin [(1 : ℚ), 2, 3] 1 2).drop
          ((winList [(1 : ℚ), 2, 3] 1 2).length -
            min 2 (winList [(1 : ℚ), 2, 3] 1 2).length) ∧
        lb.getD 2 [] = (sortedWin [(1 : ℚ), 2, 3] 1 2).take
          (min 2 (winList [(1 : ℚ), 2, 3] 1 2).length) ∧
        (lt.getD 2 []).length = min 2 (winList [(1 : ℚ), 2, 3] 1 2).length ∧
        (lb.getD 2 []).length = min 2 (winList [(1 : ℚ), 2, 3] 1 2).length ∧
        (lt.getD 2 []).Sorted (· ≤ ·) ∧ (lb.getD 2 []).Sorted (· ≤ ·)) :=
  ⟨by rfl, by omega, by decide,
    top_bottom_window_order [(1 : ℚ), 2, 3] (some (1 : ℚ)) 1 (by rfl) 2 (by omega) 2
      (by decide)⟩

end Statio
